import Mathlib

/-!
Verification of the streaming generative-UI agent core.

This file gives a shallow embedding, in Lean 4, of the core functions of the
source (the partial-JSON string-field extractor, the markup healer, the
selector-scoped mutation executor and window-store tool handlers, and the
bounded orchestration loop of `runAgentStream`), together with theorems
settling the specification claims about them.

Conventions of the embedding:
* JavaScript strings are modeled by `String` / `List Char`; machine details
  (UTF-16 surrogates) do not arise in any statement below.
* Maps (`Map`, plain objects) are modeled by association lists preserving
  JavaScript `Map` insertion-order semantics.
* Randomness (`Math.random`) is modeled by an explicit supply of candidate
  identifiers passed as an argument.
* Browser platform calls (DOMParser, querySelectorAll, serialization) are
  modeled by executable Lean functions over an explicit node tree, written
  to follow the standard platform behavior the source relies on; simple
  tag/id/class selectors are supported and anything else is rejected the
  way an invalid selector raises a SyntaxError in `querySelectorAll`.
-/

namespace GenUI

/-! ## Association-list maps (JavaScript `Map` semantics) -/

/-- Lookup in an insertion-ordered association list (JS `Map.get`). -/
def lookupA (k : String) : List (String × String) → Option String
  | [] => none
  | (k2, v) :: rest => if k2 = k then some v else lookupA k rest

/-- Update in an insertion-ordered association list (JS `Map.set`):
replace in place when the key exists, append otherwise. -/
def setA (k v : String) : List (String × String) → List (String × String)
  | [] => [(k, v)]
  | (k2, v2) :: rest =>
    if k2 = k then (k2, v) :: rest else (k2, v2) :: setA k v rest

/-- Deletion from an association list (JS `Map.delete`). -/
def eraseA (k : String) : List (String × String) → List (String × String)
  | [] => []
  | (k2, v2) :: rest => if k2 = k then rest else (k2, v2) :: eraseA k rest

/-! ## The partial-JSON string-field extractor

Embedding of `unescapeJsonString` and `extractLatestJsonStringField`
(source: `extractLatestJsonStringField` and its helper in the canvas app).
-/

/-- One step of the fallback unescape chain of `unescapeJsonString`:
the five chained global regex replaces. -/
def simpleUnescape (s : String) : String :=
  ((((s.replace "\\n" "\n").replace "\\t" "\t").replace
      "\\r" "\r").replace "\\\"" "\"").replace "\\\\" "\\"

/-- Hexadecimal digit value, for `\uXXXX` escapes. -/
def hexVal (c : Char) : Option Nat :=
  if '0' ≤ c ∧ c ≤ '9' then some (c.toNat - '0'.toNat)
  else if 'a' ≤ c ∧ c ≤ 'f' then some (c.toNat - 'a'.toNat + 10)
  else if 'A' ≤ c ∧ c ≤ 'F' then some (c.toNat - 'A'.toNat + 10)
  else none

/-- Simulation of the JSON.parse route of `unescapeJsonString`, which
wraps `s` in quotes after globally escaping every inner quote, acting
directly on the characters of `s`: every quote of `s` was escaped by the
wrapper, so a bare quote of `s` denotes a literal quote; a backslash of `s`
starts an escape sequence; a lone backslash before a quote of `s`, a
trailing backslash, an invalid escape or a raw control character make the
parse fail (`none`), which sends `unescapeJsonString` to its fallback. -/
def jsonUnescapeAux : List Char → Option (List Char)
  | [] => some []
  | '\\' :: rest =>
    match rest with
    | [] => none
    | '"' :: _ => none
    | '\\' :: rest2 => (jsonUnescapeAux rest2).map (fun cs => '\\' :: cs)
    | '/' :: rest2 => (jsonUnescapeAux rest2).map (fun cs => '/' :: cs)
    | 'b' :: rest2 => (jsonUnescapeAux rest2).map (fun cs => Char.ofNat 8 :: cs)
    | 'f' :: rest2 => (jsonUnescapeAux rest2).map (fun cs => Char.ofNat 12 :: cs)
    | 'n' :: rest2 => (jsonUnescapeAux rest2).map (fun cs => '\n' :: cs)
    | 'r' :: rest2 => (jsonUnescapeAux rest2).map (fun cs => '\r' :: cs)
    | 't' :: rest2 => (jsonUnescapeAux rest2).map (fun cs => '\t' :: cs)
    | 'u' :: h1 :: h2 :: h3 :: h4 :: rest2 =>
      match hexVal h1, hexVal h2, hexVal h3, hexVal h4 with
      | some a, some b, some c, some d =>
        (jsonUnescapeAux rest2).map
          (fun cs => Char.ofNat (((a * 16 + b) * 16 + c) * 16 + d) :: cs)
      | _, _, _, _ => none
    | _ => none
  | '"' :: rest => (jsonUnescapeAux rest).map (fun cs => '"' :: cs)
  | c :: rest =>
    if c.toNat < 32 then none
    else (jsonUnescapeAux rest).map (fun cs => c :: cs)

/-- Embedding of `unescapeJsonString`: try the JSON-parse route, fall back to the
chained replaces when it fails. -/
def unescapeJsonString (s : String) : String :=
  match jsonUnescapeAux s.data with
  | some cs => String.mk cs
  | none => simpleUnescape s

/-- JavaScript `\s` on the characters that can occur here (ASCII core). -/
def jsWhite (c : Char) : Bool :=
  c = ' ' || c = '\t' || c = '\n' || c = '\r' || c.toNat = 11 || c.toNat = 12

/-- Strip an exact literal from the front of a character list. -/
def stripLit : List Char → List Char → Option (List Char)
  | [], s => some s
  | _ :: _, [] => none
  | p :: ps, c :: cs => if p = c then stripLit ps cs else none

/-- Expect one exact character at the head, returning the remainder. -/
def expectChar (c : Char) : List Char → Option (List Char)
  | [] => none
  | d :: rest => if d = c then some rest else none

/-- Does the regex `"field"\s*:\s*"` match at the head of `s`?  If so,
return the remainder after the opening quote of the value. -/
def fieldPatternAt (field s : List Char) : Option (List Char) :=
  (expectChar '"' s).bind (fun r1 =>
  (stripLit field r1).bind (fun r2 =>
  (expectChar '"' r2).bind (fun r3 =>
  (expectChar ':' (r3.dropWhile jsWhite)).bind (fun r4 =>
  expectChar '"' (r4.dropWhile jsWhite)))))

/-- The global `exec` loop of `extractLatestJsonStringField`: find the
remainder just after the opening quote of the LAST occurrence of the
`"field":"` pattern (successive non-overlapping matches, as with a
global regex whose `lastIndex` advances past each match).  The recursion
is bounded by a character budget; by `fieldPatternAt_length_lt` every
step strictly consumes characters, so a budget of `s.length` makes the
bound unreachable and the function total in the same way the source
loop is. -/
def lastRemFuel (field : List Char) : Nat → List Char → Option (List Char)
  | 0, _ => none
  | _, [] => none
  | fuel + 1, c :: rest =>
    match fieldPatternAt field (c :: rest) with
    | some rem =>
      match lastRemFuel field fuel rem with
      | some rem2 => some rem2
      | none => some rem
    | none => lastRemFuel field fuel rest

/-- Remainder after the last `"field":"` occurrence in `s`. -/
def lastFieldRemainder (field : List Char) (s : List Char) : Option (List Char) :=
  lastRemFuel field s.length s

/-- The character scan of `extractLatestJsonStringField`: walk forward with
a backslash-escape flag, stop at the first unescaped quote; on buffer end
the span accumulated so far is returned as-is (a trailing pending
backslash is dropped). -/
def spanScan : List Char → Bool → List Char
  | [], _ => []
  | c :: rest, true => '\\' :: c :: spanScan rest false
  | c :: rest, false =>
    if c = '\\' then spanScan rest true
    else if c = '"' then []
    else c :: spanScan rest false

/-- Embedding of `extractLatestJsonStringField(jsonLike, field)`: locate the last
`"field":"` pattern, scan to the first unescaped quote or to buffer end,
and unescape the captured span; `none` only when the pattern is absent. -/
def extractLatestJsonStringField (jsonLike field : String) : Option String :=
  match lastFieldRemainder field.data jsonLike.data with
  | none => none
  | some rem => some (unescapeJsonString (String.mk (spanScan rem false)))

/-! ## The markup healer

Embedding of `healHtmlStream`: the `selfClosing` and `complex` tag sets,
the two regex cuts per raw-text tag, the trailing incomplete-tag cut, and
the tag-stack walk driven by the global regex
`<\/?([a-zA-Z][a-zA-Z0-9]*)[^>]*>` followed by the appended closing tags.
-/

/-- The `selfClosing` set of `healHtmlStream` (void element names). -/
def selfClosing : List String :=
  ["img", "br", "hr", "input", "meta", "link", "area", "base", "col",
   "embed", "param", "source", "track", "wbr"]

/-- The `complex` set of `healHtmlStream` (raw-text element names). -/
def complexTags : List String := ["script", "style"]

/-- ASCII letter test, as in the regex class `[a-zA-Z]`. -/
def asciiLetter (c : Char) : Bool :=
  ('a' ≤ c ∧ c ≤ 'z') || ('A' ≤ c ∧ c ≤ 'Z')

/-- ASCII letter-or-digit test, as in the regex class `[a-zA-Z0-9]`. -/
def asciiAlnum (c : Char) : Bool :=
  asciiLetter c || ('0' ≤ c ∧ c ≤ '9')

/-- ASCII lowercasing of one character (JS `toLowerCase` on this data). -/
def lcChar (c : Char) : Char :=
  if 'A' ≤ c ∧ c ≤ 'Z' then Char.ofNat (c.toNat + 32) else c

/-- Case-insensitive character equality as the `i` regex flag gives it. -/
def ciEq (a b : Char) : Bool := lcChar a = lcChar b

/-- Case-insensitive literal match at the head of `s`. -/
def leadsWithCI : List Char → List Char → Bool
  | [], _ => true
  | _ :: _, [] => false
  | p :: ps, c :: cs => ciEq p c && leadsWithCI ps cs

/-- Case-insensitive occurrence of `pat` anywhere in `s`. -/
def occursCI (pat : List Char) : List Char → Bool
  | [] => leadsWithCI pat []
  | c :: rest => leadsWithCI pat (c :: rest) || occursCI pat rest

/-- Does the regex `<tag[^>]*>(?:(?!<\/tag>)[\s\S])*$` (flag `i`) match at
the head of `s`?  It does exactly when `s` opens with `<tag`, some `>`
follows, and no `</tag>` occurs after the first such `>`: an opened
raw-text block whose closing tag has not arrived. -/
def rawBlockMatchAt (tag : List Char) (s : List Char) : Bool :=
  leadsWithCI ('<' :: tag) s &&
    (match (s.drop (tag.length + 1)).dropWhile (fun c => c ≠ '>') with
     | '>' :: after => ! occursCI ('<' :: '/' :: tag ++ ['>']) after
     | _ => false)

/-- Does the regex `<tag[^>]*$` (flag `i`) match at the head of `s`?
It does exactly when `s` opens with `<tag` and no `>` ever follows. -/
def openTailMatchAt (tag : List Char) (s : List Char) : Bool :=
  leadsWithCI ('<' :: tag) s && ! (s.drop (tag.length + 1)).contains '>'

/-- Does the regex `<[^>]*$` match at the head of `s`?  It does exactly
when `s` opens with `<` and no `>` ever follows. -/
def ltTailMatchAt (s : List Char) : Bool :=
  match s with
  | '<' :: rest => ! rest.contains '>'
  | _ => false

/-- Cut `s` at the leftmost position whose suffix satisfies `p`,
returning the prefix before that position (`String.match` of an
end-anchored regex followed by cutting at `lastIndexOf(m[0])`, or
`String.replace` of the end-anchored match by the empty string: both
drop the suffix from the leftmost match position). -/
def cutAtFirst (p : List Char → Bool) : List Char → List Char
  | [] => []
  | c :: rest => if p (c :: rest) then [] else c :: cutAtFirst p rest

/-- The two cuts the `complex` loop of `healHtmlStream` performs for one
raw-text tag: drop an opened-but-unclosed block, then drop an incomplete
open tag at the end. -/
def cutRawFor (tag : String) (s : List Char) : List Char :=
  cutAtFirst (openTailMatchAt tag.data) (cutAtFirst (rawBlockMatchAt tag.data) s)

/-- All raw-text cuts, in the iteration order of the `complex` set. -/
def dropRawBlocks (s : List Char) : List Char :=
  complexTags.foldl (fun acc tag => cutRawFor tag acc) s

/-- The trailing incomplete tag cut: the end-anchored regex match of an
unterminated tag start is replaced by the empty string. -/
def dropIncompleteTail (s : List Char) : List Char :=
  cutAtFirst ltTailMatchAt s

/-- One token produced by the global tag regex
`<\/?([a-zA-Z][a-zA-Z0-9]*)[^>]*>`: whether the full match starts with
`</`, whether it ends with `/>`, and the captured name lowercased. -/
structure TagTok where
  isClose : Bool
  isSelfClose : Bool
  name : String
  deriving Repr, DecidableEq

/-- Scanner mode while emulating the regex engine left to right:
outside any candidate match, just after `<`, just after `</`, or inside
a candidate tag (accumulating the name while `nameOpen`, and remembering
whether the previous character was `/` for the `/>` test). -/
inductive ScanMode where
  | outside : ScanMode
  | afterLt : ScanMode
  | afterLtSlash : ScanMode
  | inTag : (isClose : Bool) → (nameAcc : List Char) → (nameOpen : Bool) →
      (lastSlash : Bool) → ScanMode
  deriving Repr, DecidableEq

/-- Scanner state: current mode plus the tokens emitted so far.  The
source iterates `tagRegex.exec` over the healed text; this state machine
performs the identical left-to-right, non-overlapping scan: a match can
only start at `<` (optionally `</`) followed by an ASCII letter, and
then extends to the first `>`. -/
structure ScanSt where
  mode : ScanMode
  toks : List TagTok
  deriving Repr, DecidableEq

/-- One character of the regex scan. -/
def scanStep (σ : ScanSt) (c : Char) : ScanSt :=
  match σ.mode with
  | .outside =>
    if c = '<' then { σ with mode := .afterLt } else σ
  | .afterLt =>
    if c = '/' then { σ with mode := .afterLtSlash }
    else if c = '<' then { σ with mode := .afterLt }
    else if asciiLetter c then
      { σ with mode := .inTag false [lcChar c] true false }
    else { σ with mode := .outside }
  | .afterLtSlash =>
    if c = '<' then { σ with mode := .afterLt }
    else if asciiLetter c then
      { σ with mode := .inTag true [lcChar c] true false }
    else { σ with mode := .outside }
  | .inTag isClose nameAcc nameOpen lastSlash =>
    if c = '>' then
      { mode := .outside,
        toks := σ.toks ++ [⟨isClose, lastSlash, String.mk nameAcc⟩] }
    else if nameOpen && asciiAlnum c then
      { σ with mode := .inTag isClose (nameAcc ++ [lcChar c]) true (c = '/') }
    else
      { σ with mode := .inTag isClose nameAcc false (c = '/') }

/-- All tag tokens of `s`, in order. -/
def tagToks (s : List Char) : List TagTok :=
  (s.foldl scanStep ⟨.outside, []⟩).toks

/-- One step of the tag-stack walk of `healHtmlStream` (the head of the
list is the top of the stack, i.e. the innermost open element). -/
def stackStep (st : List String) (t : TagTok) : List String :=
  if selfClosing.contains t.name || complexTags.contains t.name then st
  else if t.isClose then
    match st with
    | top :: rest => if top = t.name then rest else st
    | [] => st
  else if t.isSelfClose then st
  else t.name :: st

/-- The stack of unclosed element names after walking `s`. -/
def openStack (s : List Char) : List String :=
  (tagToks s).foldl stackStep []

/-- The closing tags appended for a stack (`tagStack.reverse()` turns the
push order around, so the innermost element is closed first; with the
list head as top this is simply left-to-right order). -/
def closersFor (st : List String) : List Char :=
  st.foldr (fun t acc => '<' :: '/' :: t.data ++ '>' :: acc) []

/-- Embedding of `healHtmlStream` on characters: raw-text cuts, incomplete-tail cut,
then append closers for every name left on the stack. -/
def healChars (s : List Char) : List Char :=
  dropIncompleteTail (dropRawBlocks s) ++
    closersFor (openStack (dropIncompleteTail (dropRawBlocks s)))

/-- Embedding of `healHtmlStream(partialHTML)`. -/
def healHtmlStream (markup : String) : String :=
  String.mk (healChars markup.data)

/-- Does `p` hold at some suffix position of `s` (i.e. does the
corresponding regex match anywhere)?  Used to state the absence of a
match; none of the matchers used here accepts the empty suffix. -/
def anySuffix (p : List Char → Bool) : List Char → Bool
  | [] => false
  | c :: rest => p (c :: rest) || anySuffix p rest

/-- Every `<` of `s` is followed by some later `>` of `s` — the shape the
text has after the trailing incomplete-tag cut, ensuring no tag token can
extend past the end of `s` when more text is appended after it. -/
def goodTail : List Char → Bool
  | [] => true
  | c :: rest => (if c = '<' then rest.contains '>' else true) && goodTail rest

/-- Lowercase ASCII letter. -/
def lowAlpha (c : Char) : Bool := 'a' ≤ c && c ≤ 'z'

/-- Lowercase ASCII letter or digit. -/
def lowAlnum (c : Char) : Bool := lowAlpha c || ('0' ≤ c && c ≤ '9')

/-- The shape of a captured, lowercased tag name: one lowercase letter
followed by lowercase letters and digits. -/
def goodNameChars : List Char → Bool
  | [] => false
  | c :: cs => lowAlpha c && cs.all lowAlnum

/-- The shape of an element name held on the healer's tag stack: a
well-formed lowercased name that is neither a void element nor a
raw-text element (those are never pushed). -/
def goodStackElem (t : String) : Bool :=
  goodNameChars t.data && ! selfClosing.contains t && ! complexTags.contains t

/-- The token produced by scanning the closing tag `</t>`. -/
def closeTok (t : String) : TagTok := ⟨true, false, t⟩

/-- Invariant on the scanner mode: a partially captured name is always a
well-formed lowercase name. -/
def modeInv : ScanMode → Prop
  | .inTag _ nameAcc _ _ => goodNameChars nameAcc = true
  | _ => True


/-! ## Document tree, selectors, and the mutation executor

The source applies mutations through the browser platform: `DOMParser`
parses the stored markup, `querySelectorAll` resolves selectors, element
methods perform the edit, and `documentElement.outerHTML` serializes the
result.  Those platform calls are modeled here by executable functions on
an explicit node tree.  Markup payloads handed to `innerHTML`,
`insertAdjacentHTML` and the `replace_with_html` template are kept as raw
nodes (their internal parse does not matter to any claim), and — as the
specification notes for reimplementation — selector matching is a minimal
tag/id/class matcher; anything else is rejected exactly the way an
invalid selector raises a SyntaxError in `querySelectorAll`.
-/

/-- A node of the modeled document tree. -/
inductive HNode where
  | elem (tag : String) (attrs : List (String × String)) (children : List HNode)
  | text (s : String)
  | raw (s : String)
  deriving Repr

/-- Serialize an attribute list the way `outerHTML` does. -/
def serializeAttrs (attrs : List (String × String)) : String :=
  attrs.foldl (fun acc p => acc ++ " " ++ p.1 ++ "=\"" ++ p.2 ++ "\"") ""

mutual

/-- Serialization (`outerHTML`) of one node (void elements without children render with no
closing tag, matching the platform serializer on the documents produced
here). -/
def serializeNode : HNode → String
  | .text s => s
  | .raw s => s
  | .elem tag attrs children =>
    if selfClosing.contains tag && children.isEmpty then
      "<" ++ tag ++ serializeAttrs attrs ++ ">"
    else
      "<" ++ tag ++ serializeAttrs attrs ++ ">" ++ serializeKids children ++
        "</" ++ tag ++ ">"

/-- Serialization of a child list, in order. -/
def serializeKids : List HNode → String
  | [] => ""
  | n :: rest => serializeNode n ++ serializeKids rest

end

/-- The selector fragment supported by the minimal matcher. -/
inductive SimpleSel where
  | byTag (tag : String)
  | byId (idv : String)
  | byClass (cls : String)
  deriving Repr, DecidableEq

/-- Characters allowed in the modeled identifiers. -/
def selIdentChar (c : Char) : Bool := asciiAlnum c || c = '-' || c = '_'

/-- Parse a selector string; an empty or unsupported selector is the
`SyntaxError` that `querySelectorAll` raises on an invalid selector. -/
def parseSelector (sel : String) : Except String SimpleSel :=
  match sel.data with
  | [] => .error "SyntaxError: empty selector"
  | '#' :: rest =>
    if rest ≠ [] ∧ rest.all selIdentChar then .ok (.byId (String.mk rest))
    else .error "SyntaxError: invalid selector"
  | '.' :: rest =>
    if rest ≠ [] ∧ rest.all selIdentChar then .ok (.byClass (String.mk rest))
    else .error "SyntaxError: invalid selector"
  | cs =>
    if cs.all asciiAlnum then .ok (.byTag (String.mk (cs.map lcChar)))
    else .error "SyntaxError: invalid selector"

/-- Attribute lookup. -/
def getAttr (attrs : List (String × String)) (n : String) : Option String :=
  lookupA n attrs

/-- The whitespace-separated class tokens of a `class` attribute value. -/
def classTokens (s : String) : List String :=
  (s.split (fun c => c = ' ')).filter (fun t => t ≠ "")

/-- Does an element with this tag and attribute list match the selector?
Tag matching is case-insensitive as in HTML. -/
def matchesSel (sel : SimpleSel) (tag : String) (attrs : List (String × String)) :
    Bool :=
  match sel with
  | .byTag t => String.mk (tag.data.map lcChar) = t
  | .byId i => getAttr attrs "id" = some i
  | .byClass c => match getAttr attrs "class" with
    | some s => (classTokens s).contains c
    | none => false

mutual

/-- The number of elements of the tree matching the selector — the length
of the `querySelectorAll` snapshot list. -/
def countMatches (sel : SimpleSel) : HNode → Nat
  | .elem tag attrs kids =>
    (if matchesSel sel tag attrs then 1 else 0) + countKids sel kids
  | .text _ => 0
  | .raw _ => 0

/-- Match count over a child list. -/
def countKids (sel : SimpleSel) : List HNode → Nat
  | [] => 0
  | n :: rest => countMatches sel n + countKids sel rest

end

/-- The four `insertAdjacentHTML` positions. -/
inductive InsertPos where
  | beforebegin
  | afterbegin
  | beforeend
  | afterend
  deriving Repr, DecidableEq

/-- The effect of one mutation, separated from its selector. -/
inductive MutEff where
  | eSetText (t : String)
  | eSetHtml (h : String)
  | eReplace (h : String)
  | eInsert (pos : InsertPos) (h : String)
  | eSetAttr (n v : String)
  | eRemoveAttr (n : String)
  | eAddClass (c : String)
  | eRemoveClass (c : String)
  | eRemove
  deriving Repr, DecidableEq

/-- Embedding of `classList.add`: append the token when missing. -/
def addClassAttr (attrs : List (String × String)) (c : String) :
    List (String × String) :=
  let toks := classTokens ((getAttr attrs "class").getD "")
  let toks2 := if toks.contains c then toks else toks ++ [c]
  setA "class" (String.intercalate " " toks2) attrs

/-- Embedding of `classList.remove`: drop the token. -/
def removeClassAttr (attrs : List (String × String)) (c : String) :
    List (String × String) :=
  let toks := (classTokens ((getAttr attrs "class").getD "")).filter
    (fun t => t ≠ c)
  setA "class" (String.intercalate " " toks) attrs

mutual

/-- Apply one effect to every matching element of the tree (the per-element
loop over the `querySelectorAll` snapshot, expressed as one traversal whose
result is the final document).  A matching element hit by a destructive
effect (`remove`, `replace_with_html`, `set_text`, `set_html`) is not
searched further: its snapshot descendants are detached by the edit, so
edits to them do not appear in the final document. -/
def applyNode (sel : SimpleSel) (eff : MutEff) : HNode → List HNode
  | .elem tag attrs kids =>
    if matchesSel sel tag attrs then
      match eff with
      | .eSetText t => [.elem tag attrs [.text t]]
      | .eSetHtml h => [.elem tag attrs [.raw h]]
      | .eReplace h => [.raw h]
      | .eRemove => []
      | .eInsert pos h =>
        match pos with
        | .beforebegin => [.raw h, .elem tag attrs (applyKids sel eff kids)]
        | .afterend => [.elem tag attrs (applyKids sel eff kids), .raw h]
        | .afterbegin => [.elem tag attrs (.raw h :: applyKids sel eff kids)]
        | .beforeend => [.elem tag attrs (applyKids sel eff kids ++ [.raw h])]
      | .eSetAttr n v => [.elem tag (setA n v attrs) (applyKids sel eff kids)]
      | .eRemoveAttr n => [.elem tag (eraseA n attrs) (applyKids sel eff kids)]
      | .eAddClass c => [.elem tag (addClassAttr attrs c) (applyKids sel eff kids)]
      | .eRemoveClass c =>
        [.elem tag (removeClassAttr attrs c) (applyKids sel eff kids)]
    else
      [.elem tag attrs (applyKids sel eff kids)]
  | .text s => [.text s]
  | .raw s => [.raw s]

/-- Apply an effect over a child list. -/
def applyKids (sel : SimpleSel) (eff : MutEff) : List HNode → List HNode
  | [] => []
  | n :: rest => applyNode sel eff n ++ applyKids sel eff rest

end

/-- Apply an effect at the document root.  An edit that would detach or
multiply the document element is outside the modeled fragment and leaves
the document unchanged; no claim exercises that corner. -/
def applyDoc (sel : SimpleSel) (eff : MutEff) (doc : HNode) : HNode :=
  match applyNode sel eff doc with
  | [d] => d
  | _ => doc

/-- The embedding of `DomMutation` (the tool-schema tagged union). -/
inductive DomMutation where
  | set_text (selector text : String)
  | set_html (selector html : String)
  | replace_with_html (selector html : String)
  | insert_html (selector : String) (position : InsertPos) (html : String)
  | set_attr (selector n v : String)
  | remove_attr (selector n : String)
  | add_class (selector cls : String)
  | remove_class (selector cls : String)
  | remove (selector : String)
  deriving Repr, DecidableEq

/-- The `action` discriminator string of a mutation. -/
def DomMutation.actionName : DomMutation → String
  | .set_text _ _ => "set_text"
  | .set_html _ _ => "set_html"
  | .replace_with_html _ _ => "replace_with_html"
  | .insert_html _ _ _ => "insert_html"
  | .set_attr _ _ _ => "set_attr"
  | .remove_attr _ _ => "remove_attr"
  | .add_class _ _ => "add_class"
  | .remove_class _ _ => "remove_class"
  | .remove _ => "remove"

/-- The selector of a mutation. -/
def DomMutation.selOf : DomMutation → String
  | .set_text s _ => s
  | .set_html s _ => s
  | .replace_with_html s _ => s
  | .insert_html s _ _ => s
  | .set_attr s _ _ => s
  | .remove_attr s _ => s
  | .add_class s _ => s
  | .remove_class s _ => s
  | .remove s => s

/-- The effect of a mutation. -/
def DomMutation.effOf : DomMutation → MutEff
  | .set_text _ t => .eSetText t
  | .set_html _ h => .eSetHtml h
  | .replace_with_html _ h => .eReplace h
  | .insert_html _ p h => .eInsert p h
  | .set_attr _ n v => .eSetAttr n v
  | .remove_attr _ n => .eRemoveAttr n
  | .add_class _ c => .eAddClass c
  | .remove_class _ c => .eRemoveClass c
  | .remove _ => .eRemove

/-- One per-op detail record of the mutation executor. -/
structure MutDetail where
  action : String
  selector : String
  matched : Nat
  applied : Nat
  error : Option String
  deriving Repr, DecidableEq

/-- Running state of `applyMutations`: the live document, the detail list,
and the two running totals. -/
structure ApplyOut where
  doc : HNode
  details : List MutDetail
  totalTargets : Nat
  totalApplied : Nat

/-- One iteration of the `for (const m of muts)` loop with its
`try`/`catch`: an invalid selector throws inside the `try`, the catch
records `matched: 0, applied: 0` plus the error text and the loop moves
on; otherwise every snapshot element is edited and the totals grow by the
match count. -/
def applyOne (out : ApplyOut) (m : DomMutation) : ApplyOut :=
  match parseSelector m.selOf with
  | .error e =>
    { out with details := out.details ++ [⟨m.actionName, m.selOf, 0, 0, some e⟩] }
  | .ok sel =>
    let matched := countMatches sel out.doc
    { doc := applyDoc sel m.effOf out.doc,
      details := out.details ++ [⟨m.actionName, m.selOf, matched, matched, none⟩],
      totalTargets := out.totalTargets + matched,
      totalApplied := out.totalApplied + matched }

/-- Embedding of `applyMutations(doc, muts)`: ops strictly in input order, each against
the result of all prior ops. -/
def applyMutations (doc : HNode) (muts : List DomMutation) : ApplyOut :=
  muts.foldl applyOne ⟨doc, [], 0, 0⟩

/-! ## The HTML parser model

`DOMParser.parseFromString` in text/html mode, modeled far enough to
parse the serializer's own output and ordinary element markup: an
optional `<!...>` preamble is skipped, elements with quoted attributes
nest until their closing tag, void elements do not nest, anything that is
not recognizable tag structure becomes text, and a document whose single
top element is not `html` is wrapped into `html`/`head`/`body` the way
the platform parser completes such input. -/

/-- Attribute-list parser: consume up to and including the closing `>`
(or `/>`), returning the attributes, the remainder, and the self-close
flag. -/
def parseAttrsF : Nat → List Char → (List (String × String) × List Char × Bool)
  | 0, cs => ([], cs, false)
  | fuel + 1, cs0 =>
    let cs := cs0.dropWhile (fun c => c = ' ')
    match cs with
    | '>' :: rest => ([], rest, false)
    | '/' :: '>' :: rest => ([], rest, true)
    | [] => ([], [], false)
    | _ =>
      let n := cs.takeWhile selIdentChar
      if n.isEmpty then
        parseAttrsF fuel (cs.drop 1)
      else
        match cs.drop n.length with
        | '=' :: '"' :: rest2 =>
          let v := rest2.takeWhile (fun c => c ≠ '"')
          let (as, rem, sc) := parseAttrsF fuel (rest2.drop (v.length + 1))
          ((String.mk n, String.mk v) :: as, rem, sc)
        | cs2 =>
          let (as, rem, sc) := parseAttrsF fuel cs2
          ((String.mk n, "") :: as, rem, sc)

/-- Consume the closing tag `</tag>` if present (best effort). -/
def stripCloseTag (tag : String) (cs : List Char) : List Char :=
  let pat := '<' :: '/' :: tag.data ++ ['>']
  if leadsWithCI pat cs then cs.drop pat.length else cs

/-- Node-sequence parser; stops at a closing tag, which the caller
consumes. -/
def parseNodesF : Nat → List Char → (List HNode × List Char)
  | 0, cs => ([], cs)
  | fuel + 1, cs =>
    match cs with
    | [] => ([], [])
    | '<' :: '/' :: rest => ([], '<' :: '/' :: rest)
    | '<' :: c :: rest =>
      if asciiLetter c then
        let nameCs := (c :: rest).takeWhile asciiAlnum
        let tag := String.mk (nameCs.map lcChar)
        let afterName := (c :: rest).drop nameCs.length
        let (attrs, rem, sc) := parseAttrsF (afterName.length + 1) afterName
        if sc || selfClosing.contains tag then
          let (sibs, rem2) := parseNodesF fuel rem
          (.elem tag attrs [] :: sibs, rem2)
        else
          let (kids, rem2) := parseNodesF fuel rem
          let (sibs, rem4) := parseNodesF fuel (stripCloseTag tag rem2)
          (.elem tag attrs kids :: sibs, rem4)
      else
        let (ns, rem) := parseNodesF fuel (c :: rest)
        (.text "<" :: ns, rem)
    | c :: rest =>
      let t := (c :: rest).takeWhile (fun x => x ≠ '<')
      let (ns, rem) := parseNodesF fuel ((c :: rest).drop t.length)
      (.text (String.mk t) :: ns, rem)

/-- Wrap loose content the way the platform parser completes a document. -/
def wrapDoc (ns : List HNode) : HNode :=
  .elem "html" [] [.elem "head" [] [], .elem "body" [] ns]

/-- Model of the document-element result of parsing with the platform parser. -/
def parseHtml (s : String) : HNode :=
  let cs0 := s.data
  let cs := if leadsWithCI ['<', '!'] cs0 then
    (cs0.dropWhile (fun c => c ≠ '>')).drop 1 else cs0
  match parseNodesF (2 * cs.length + 4) cs with
  | ([HNode.elem "html" attrs kids], _) => .elem "html" attrs kids
  | (ns, _) => wrapDoc ns

/-! ## The window store and the tool handlers -/

/-- The per-window node data the canvas keeps (`data.html`, `data.title`,
and the React Flow node id). -/
structure WinNode where
  id : String
  title : String
  html : String
  deriving Repr, DecidableEq

/-- The cross-call mutable maps of the app plus the node list. -/
structure AppStore where
  nameToNodeId : List (String × String)
  nodeIdToName : List (String × String)
  windowIdToNodeId : List (String × String)
  nodeIdToWindowId : List (String × String)
  provisionalNameToNodeId : List (String × String)
  nodes : List WinNode
  deriving Repr, DecidableEq

/-- The totals block of a `dom_replace` result. -/
structure DomTotals where
  totalMutations : Nat
  totalTargets : Nat
  totalApplied : Nat
  failed : Nat
  deriving Repr, DecidableEq

/-- The result shape of the `domReplace` handler. -/
structure DomReplaceResult where
  status : String
  windowId : String
  html : String
  totals : DomTotals
  details : List MutDetail
  deriving Repr, DecidableEq

/-- The parser input used when the stored markup is empty. -/
def defaultEmptyDoc : String :=
  "<!DOCTYPE html><html><head><meta charset=\"utf-8\"></head><body></body></html>"

/-- Find a node by id (the `setNodes` map touches only this node). -/
def findNode (nodes : List WinNode) (nodeId : String) : Option WinNode :=
  nodes.find? (fun n => n.id = nodeId)

/-- The `domReplace` tool handler.  An unknown `windowId` soft-fails with a
zero-effect result; otherwise the stored markup (standing in for the live
iframe document) is parsed, the mutation list applied, and the node's
markup replaced by the re-serialized document.  `failed` counts the ops
with zero successful applications. -/
def domReplace (store : AppStore) (windowId : String) (muts : List DomMutation) :
    DomReplaceResult × AppStore :=
  match lookupA windowId store.windowIdToNodeId with
  | none =>
    (⟨"edited", windowId, "", ⟨muts.length, 0, 0, muts.length⟩,
      muts.map (fun m => ⟨m.actionName, m.selOf, 0, 0, none⟩)⟩, store)
  | some nodeId =>
    match findNode store.nodes nodeId with
    | none =>
      (⟨"edited", windowId, "", ⟨muts.length, 0, 0, muts.length⟩, []⟩, store)
    | some n =>
      let doc := parseHtml (if n.html = "" then defaultEmptyDoc else n.html)
      let r := applyMutations doc muts
      let finalHtml := "<!DOCTYPE html>" ++ serializeNode r.doc
      let failed :=
        muts.length - (r.details.filter (fun d => 0 < d.applied)).length
      (⟨"edited", windowId, finalHtml,
        ⟨muts.length, r.totalTargets, r.totalApplied, failed⟩, r.details⟩,
       { store with nodes := store.nodes.map (fun m =>
           if m.id = nodeId then { m with html := finalHtml } else m) })

/-- The result shape of the `updateWindowTitle` handler. -/
structure TitleResult where
  status : String
  windowId : String
  title : String
  deriving Repr, DecidableEq

/-- The `updateWindowTitle` tool handler: an unknown `windowId` still
returns `updated` as an idempotent no-op; otherwise the node title and
the display-name maps are updated. -/
def updateWindowTitle (store : AppStore) (windowId title : String) :
    TitleResult × AppStore :=
  match lookupA windowId store.windowIdToNodeId with
  | none => (⟨"updated", windowId, title⟩, store)
  | some nodeId =>
    let nameMap := match lookupA nodeId store.nodeIdToName with
      | some prev => eraseA prev store.nameToNodeId
      | none => store.nameToNodeId
    (⟨"updated", windowId, title⟩,
     { store with
        nodes := store.nodes.map (fun n =>
          if n.id = nodeId then { n with title := title } else n),
        nodeIdToName := setA nodeId title store.nodeIdToName,
        nameToNodeId := setA title nodeId nameMap })

/-- Normalization of possibly JSON-escaped markup
(`decodePossibleEscapes`): untouched when no backslash occurs, else the
same parse-or-fallback as `unescapeJsonString`. -/
def decodePossibleEscapes (value : String) : String :=
  if value.data.contains '\\' then
    match jsonUnescapeAux value.data with
    | some cs => String.mk cs
    | none => simpleUnescape value
  else value

/-- The result shape of the `setWindowHtml` handler. -/
structure SetHtmlResult where
  status : String
  windowId : String
  htmlLength : Nat
  deriving Repr, DecidableEq

/-- The `setWindowHtml` tool handler: wholesale markup replacement,
soft no-op on unknown `windowId`. -/
def setWindowHtml (store : AppStore) (windowId html : String) :
    SetHtmlResult × AppStore :=
  let normalizedHtml := decodePossibleEscapes html
  match lookupA windowId store.windowIdToNodeId with
  | none => (⟨"set", windowId, normalizedHtml.length⟩, store)
  | some nodeId =>
    (⟨"set", windowId, normalizedHtml.length⟩,
     { store with nodes := store.nodes.map (fun n =>
         if n.id = nodeId then { n with html := normalizedHtml } else n) })

/-- The display-name disambiguation loop of `createNewWindow`: try
`name (k)` for increasing `k`.  One of the first `taken.length + 1`
candidates is always free, so the budget is never exhausted and the
function is total the way the source loop is. -/
def freshNameAux (taken : List (String × String)) (name : String) :
    Nat → Nat → String
  | k, 0 => name ++ " (" ++ toString k ++ ")"
  | k, fuel + 1 =>
    let cand := name ++ " (" ++ toString k ++ ")"
    match lookupA cand taken with
    | some _ => freshNameAux taken name (k + 1) fuel
    | none => cand

/-- JavaScript `String.prototype.trim` on its ASCII whitespace core. -/
def jsTrim (s : String) : String :=
  String.mk (((s.data.dropWhile jsWhite).reverse.dropWhile jsWhite).reverse)

/-- The `finalName` computation: the trimmed name when free, else the first
free suffixed candidate (the suffix loop builds candidates from the
untrimmed name, as the source does). -/
def freshName (taken : List (String × String)) (name : String) : String :=
  match lookupA (jsTrim name) taken with
  | none => jsTrim name
  | some _ => freshNameAux taken name 2 (taken.length + 1)

/-- The `while (windowIdToNodeId.has(windowId))` regeneration loop: the
first candidate of the supply that is not already a key.  `none` models
the (probability-zero) exhaustion of the random supply. -/
def freshWindowId (used : List (String × String)) : List String → Option String
  | [] => none
  | cand :: rest =>
    match lookupA cand used with
    | some _ => freshWindowId used rest
    | none => some cand

/-- The result shape of the `createNewWindow` handler. -/
structure CreateResult where
  status : String
  name : String
  finalName : String
  nodeId : String
  windowId : String
  deriving Repr, DecidableEq

/-- The `createNewWindow` tool handler: resolve a unique display name,
generate an unused window id, then either adopt the provisional node
registered for this name during streaming or append a fresh node
(`newNodeId` stands for the `Date.now()`-based id).  Geometry and focus
handling touch no observable state of the claims. -/
def createNewWindow (store : AppStore) (idSupply : List String)
    (newNodeId : String) (name html : String) :
    Option (CreateResult × AppStore) :=
  let finalName := freshName store.nameToNodeId name
  match freshWindowId store.windowIdToNodeId idSupply with
  | none => none
  | some windowId =>
    let normalizedHtml := decodePossibleEscapes html
    match lookupA name store.provisionalNameToNodeId with
    | some provisionalId =>
      some (⟨if finalName = name then "created" else "renamed",
             name, finalName, provisionalId, windowId⟩,
        { store with
            nameToNodeId := setA finalName provisionalId store.nameToNodeId,
            nodeIdToName := setA provisionalId finalName store.nodeIdToName,
            windowIdToNodeId := setA windowId provisionalId store.windowIdToNodeId,
            nodeIdToWindowId := setA provisionalId windowId store.nodeIdToWindowId,
            nodes := store.nodes.map (fun n =>
              if n.id = provisionalId then
                { n with html := normalizedHtml, title := finalName } else n),
            provisionalNameToNodeId :=
              eraseA name store.provisionalNameToNodeId })
    | none =>
      some (⟨if finalName = name then "created" else "renamed",
             name, finalName, newNodeId, windowId⟩,
        { store with
            nameToNodeId := setA finalName newNodeId store.nameToNodeId,
            nodeIdToName := setA newNodeId finalName store.nodeIdToName,
            windowIdToNodeId := setA windowId newNodeId store.windowIdToNodeId,
            nodeIdToWindowId := setA newNodeId windowId store.nodeIdToWindowId,
            nodes := store.nodes ++ [⟨newNodeId, finalName, normalizedHtml⟩] })

/-! ## The orchestration loop of `runAgentStream`

The generator of `runAgentStream` is a bounded loop over streamed steps.
A step's stream is modeled as a list of chunks; the transport is a
function from step index to outcome; the tool dispatch (JSON argument
parsing and the four handlers) is abstracted as an opaque execution
function, since every claim settled against this model concerns control
flow, the emitted events, and text/usage accumulation only.  The three
deferred promises are modeled as single-assignment cells: the first
resolution wins, as with promise `resolve`.  The `catch` path of the
generator is not reachable in the pure model (no embedded operation
throws), and no claim concerns it. -/

/-- Normalized token usage as the loop reads it (the value of
`prompt_tokens`/`completion_tokens` after the field fallbacks; a field
is absent when not numeric). -/
structure Usage where
  promptTok : Option Nat
  completionTok : Option Nat
  deriving Repr, DecidableEq

/-- One entry of a chunk's `tool_calls` delta array (absent fields are
`none`; the source defaults a missing index to 0, so the index is kept
total here). -/
structure ToolCallDelta where
  index : Nat
  id : Option String
  fname : Option String
  argsDelta : Option String
  deriving Repr, DecidableEq

/-- One streamed chunk: `choices[0].delta.content`,
`choices[0].delta.tool_calls`, and `usage`. -/
structure Chunk where
  textDelta : Option String
  toolCalls : Option (List ToolCallDelta)
  usage : Option Usage
  deriving Repr, DecidableEq

/-- What one `chat.completions.create` stream yields: its chunks and the
usage of the consolidated `finalChatCompletion` (`none` when the call is
unavailable, throws, or carries no usage). -/
structure StepOutcome where
  chunks : List Chunk
  finalUsage : Option Usage
  deriving Repr, DecidableEq

/-- Per-call streaming state: one `toolState` entry. -/
structure ToolSt where
  id : String
  fname : Option String
  argsText : String
  started : Bool
  deriving Repr, DecidableEq

/-- The caller-visible events yielded by the generator. -/
inductive AgentEvent where
  | textDelta (text : String)
  | toolCallStart (toolName : String) (toolCallId : String)
  | toolInputDelta (toolName : Option String) (toolCallId : String) (delta : String)
  | toolResult (toolCallId : String) (toolName : String) (output : String)
  | finishStep
  | finish (finishReason : String)
  | errorEvent (message : String)
  deriving Repr, DecidableEq

/-- Embedding of `toolState.get(idx)` (a `Map` keyed by chunk index). -/
def lookupN (k : Nat) : List (Nat × ToolSt) → Option ToolSt
  | [] => none
  | (k2, v) :: rest => if k2 = k then some v else lookupN k rest

/-- Embedding of `toolState.set(idx, st)`, preserving first-insertion order. -/
def setN (k : Nat) (v : ToolSt) : List (Nat × ToolSt) → List (Nat × ToolSt)
  | [] => [(k, v)]
  | (k2, v2) :: rest =>
    if k2 = k then (k2, v) :: rest else (k2, v2) :: setN k v rest

/-- JS truthiness of an optional string: the undefined value and the
empty string are falsy. -/
def truthy : Option String → Bool
  | some s => s ≠ ""
  | none => false

/-- Per-step accumulation state: events emitted so far, `stepText`, the
`toolState` map, and the last chunk-reported usage. -/
structure StepRun where
  events : List AgentEvent
  stepText : String
  tstate : List (Nat × ToolSt)
  chunkUsage : Option Usage
  deriving Repr, DecidableEq

/-- Processing of one `tool_calls` array entry: default the call id when
empty, adopt a newly announced name, emit the deduplicated `tool-call`
event on the first truthy name, then append a nonempty arguments delta
and emit `tool-input-delta`. -/
def applyToolDelta (step : Nat) (r : StepRun) (tc : ToolCallDelta) : StepRun :=
  let st0 := (lookupN tc.index r.tstate).getD ⟨"", none, "", false⟩
  let st1 := if st0.id = "" then
      { st0 with id := match tc.id with
          | some s =>
            if s = "" then "tc_" ++ toString step ++ "_" ++ toString tc.index
            else s
          | none => "tc_" ++ toString step ++ "_" ++ toString tc.index }
    else st0
  let st2 := { st1 with fname := tc.fname <|> st1.fname }
  let fire := !st2.started && truthy st2.fname
  let st3 := if fire then { st2 with started := true } else st2
  let evs1 := if fire then [AgentEvent.toolCallStart (st3.fname.getD "") st3.id]
    else []
  let hasArgs := match tc.argsDelta with
    | some d => decide (0 < d.length)
    | none => false
  let d := tc.argsDelta.getD ""
  let st4 := if hasArgs then { st3 with argsText := st3.argsText ++ d } else st3
  let evs2 := if hasArgs then [AgentEvent.toolInputDelta st4.fname st4.id d]
    else []
  { r with events := r.events ++ (evs1 ++ evs2),
           tstate := setN tc.index st4 r.tstate }

/-- Processing of one chunk: a truthy text delta is yielded and
accumulated, each tool-call delta is folded into the state, and a chunk
usage object replaces the remembered one. -/
def processChunk (step : Nat) (r : StepRun) (ch : Chunk) : StepRun :=
  let r := match ch.textDelta with
    | some t =>
      if t ≠ "" then
        { r with events := r.events ++ [AgentEvent.textDelta t],
                 stepText := r.stepText ++ t }
      else r
    | none => r
  let r := match ch.toolCalls with
    | some tcs => tcs.foldl (applyToolDelta step) r
    | none => r
  match ch.usage with
  | some u => { r with chunkUsage := some u }
  | none => r

/-- The whole `for await (const chunk of stream)` loop of one step. -/
def processStep (step : Nat) (o : StepOutcome) : StepRun :=
  o.chunks.foldl (processChunk step) ⟨[], "", [], none⟩

/-- Embedding of `toolCallsToExecute`: the state values, in first-insertion order,
whose name is truthy. -/
def execCallsOf (tstate : List (Nat × ToolSt)) : List ToolSt :=
  (tstate.map Prod.snd).filter (fun t => truthy t.fname)

/-- The shape the resolved usage deferred carries (`inputTokens` and
`promptTokens` alias the same number, as do the output fields). -/
structure UsageOut where
  inputTokens : Nat
  outputTokens : Nat
  deriving Repr, DecidableEq

/-- One aggregated tool result. -/
structure ToolResultRec where
  toolCallId : String
  toolName : String
  output : String
  deriving Repr, DecidableEq

/-- The observable outcome of one `runAgentStream` invocation: the full
event sequence and the three deferred cells. -/
structure RunResult where
  events : List AgentEvent
  text : Option String
  usage : Option UsageOut
  toolResults : Option (List ToolResultRec)
  deriving Repr, DecidableEq

/-- Promise resolution: the first value wins, later calls are no-ops. -/
def resolveCell {α : Type} (cell : Option α) (v : α) : Option α :=
  match cell with
  | none => some v
  | some x => some x

/-- The code after the `for` loop, which runs on EVERY exit from the loop
(its guard `if (textDeferred)` is always truthy): resolve the deferreds —
no-ops when already resolved — and yield a `finish` event with reason
`length`. -/
def agentFinale (finalText : String) (events : List AgentEvent)
    (textRes : Option String) (usageRes : Option UsageOut)
    (agg : List ToolResultRec) (pt ct : Nat) : RunResult :=
  ⟨events ++ [.finish "length"],
   resolveCell textRes finalText,
   resolveCell usageRes ⟨pt, ct⟩,
   some agg⟩

/-- The body of `for (let step = 0; step < 12; step++)`, with `fuel` the
remaining iterations (`12 - step`): run the stream, update the last-step
token counts, and either finish with `stop` on zero executable calls
(falling through to the epilogue via `break`) or dispatch each call in
order, yield its result and `finish-step`, and continue. -/
def agentGo (execTool : String → String → String) (steps : Nat → StepOutcome) :
    Nat → Nat → String → List AgentEvent → Option String → Option UsageOut →
      List ToolResultRec → Nat → Nat → RunResult
  | 0, _, finalText, events, textRes, usageRes, agg, pt, ct =>
    agentFinale finalText events textRes usageRes agg pt ct
  | fuel + 1, step, finalText, events, textRes, usageRes, agg, pt, ct =>
    let r := processStep step (steps step)
    let events2 := events ++ r.events
    let finalText2 := finalText ++ r.stepText
    let su := (steps step).finalUsage <|> r.chunkUsage
    let pt2 := match su with | some u => u.promptTok.getD pt | none => pt
    let ct2 := match su with | some u => u.completionTok.getD ct | none => ct
    let calls := execCallsOf r.tstate
    if calls.isEmpty then
      agentFinale finalText2 (events2 ++ [.finish "stop"])
        (resolveCell textRes r.stepText)
        (resolveCell usageRes ⟨pt2, ct2⟩) agg pt2 ct2
    else
      let results := calls.map (fun c =>
        (⟨c.id, c.fname.getD "", execTool (c.fname.getD "") c.argsText⟩ :
          ToolResultRec))
      agentGo execTool steps fuel (step + 1) finalText2
        (events2 ++
          results.map (fun rr => .toolResult rr.toolCallId rr.toolName rr.output)
          ++ [.finishStep])
        textRes usageRes (agg ++ results) pt2 ct2

/-- The generator of `runAgentStream`. -/
def runAgentEvents (execTool : String → String → String)
    (steps : Nat → StepOutcome) : RunResult :=
  agentGo execTool steps 12 0 "" [] none none [] 0 0

/-- Is an event a `finish-step`? -/
def isFinishStepEv : AgentEvent → Bool
  | .finishStep => true
  | _ => false

/-- Is an event a terminal `finish`? -/
def isFinishEv : AgentEvent → Bool
  | .finish _ => true
  | _ => false

/-- An event that neither finishes anything nor carries a text delta. -/
def silentEv : AgentEvent → Bool
  | .toolCallStart _ _ => true
  | .toolInputDelta _ _ _ => true
  | .toolResult _ _ _ => true
  | .errorEvent _ => true
  | _ => false

/-- One fold step of text-delta concatenation. -/
def tdStep (acc : String) (e : AgentEvent) : String :=
  match e with
  | .textDelta t => acc ++ t
  | _ => acc

/-- The concatenation of all text deltas of an event sequence. -/
def concatTextDeltas (evs : List AgentEvent) : String :=
  evs.foldl tdStep ""

/-- The invariant the per-step stream processing maintains: no finish
events are emitted inside a step, and `stepText` is exactly the
concatenation of the emitted text deltas. -/
def stepInv (r : StepRun) : Prop :=
  r.events.filter isFinishEv = [] ∧
  r.events.filter isFinishStepEv = [] ∧
  concatTextDeltas r.events = r.stepText

/-! ## Concrete stores used in claim instances -/

/-- A one-window store whose markup is in canonical serialized form. -/
def storeCanon : AppStore :=
  ⟨[("Win", "n1")], [("n1", "Win")], [("w1", "n1")], [("n1", "w1")], [],
   [⟨"n1", "Win",
     "<!DOCTYPE html><html><head></head><body><div id=\"a\">x</div></body></html>"⟩]⟩

/-- A one-window store whose markup lacks the doctype preamble. -/
def storeNoDoctype : AppStore :=
  ⟨[("Win", "n1")], [("n1", "Win")], [("w1", "n1")], [("n1", "w1")], [],
   [⟨"n1", "Win", "<html><head></head><body></body></html>"⟩]⟩

/-- The empty session store. -/
def storeEmpty : AppStore := ⟨[], [], [], [], [], []⟩

/-- A store holding one window display-named `Notes (2)` and none named
`Notes`. -/
def storeNotes2 : AppStore :=
  ⟨[("Notes (2)", "n0")], [("n0", "Notes (2)")], [("w0", "n0")],
   [("n0", "w0")], [], [⟨"n0", "Notes (2)", "<p></p>"⟩]⟩

/-! ## Supporting lemmas -/

theorem lookupA_setA_self (k v : String) (l : List (String × String)) :
    lookupA k (setA k v l) = some v := by
  induction l with
  | nil => simp [setA, lookupA]
  | cons p rest ih =>
    obtain ⟨k2, v2⟩ := p
    by_cases h : k2 = k <;> simp [setA, lookupA, h, ih]

theorem lookupA_setA_ne (k k2 v : String) (l : List (String × String))
    (h : k ≠ k2) : lookupA k (setA k2 v l) = lookupA k l := by
  induction l with
  | nil => simp [setA, lookupA, Ne.symm h]
  | cons p rest ih =>
    obtain ⟨k3, v3⟩ := p
    by_cases h3 : k3 = k2
    · subst h3
      simp [setA, lookupA, Ne.symm h]
    · by_cases h4 : k3 = k <;> simp [setA, lookupA, h3, h4, h, ih]

theorem lookupA_none_notMem (k : String) (l : List (String × String))
    (h : lookupA k l = none) : k ∉ l.map Prod.fst := by
  induction l with
  | nil => simp
  | cons p rest ih =>
    obtain ⟨k2, v2⟩ := p
    by_cases h2 : k2 = k
    · simp [lookupA, h2] at h
    · simp [lookupA, h2] at h
      simpa [Ne.symm h2] using ih h

theorem setA_of_notMem (k v : String) (l : List (String × String))
    (h : lookupA k l = none) : setA k v l = l ++ [(k, v)] := by
  induction l with
  | nil => simp [setA]
  | cons p rest ih =>
    obtain ⟨k2, v2⟩ := p
    by_cases h2 : k2 = k
    · simp [lookupA, h2] at h
    · simp [lookupA, h2] at h
      simp [setA, h2, ih h]

theorem stripLit_length_le (p : List Char) :
    ∀ s r, stripLit p s = some r → r.length ≤ s.length := by
  induction p with
  | nil => intro s r h; simp [stripLit] at h; simp [h]
  | cons c cs ih =>
    intro s r h
    match s with
    | [] => simp [stripLit] at h
    | d :: ds =>
      simp only [stripLit] at h
      split at h
      · exact Nat.le_trans (ih ds r h) (Nat.le_succ _)
      · exact absurd h (by simp)

theorem dropWhile_length_le (p : Char → Bool) (l : List Char) :
    (l.dropWhile p).length ≤ l.length :=
  (List.dropWhile_sublist (l := l) (p := p)).length_le

theorem expectChar_length_lt (c : Char) (s r : List Char)
    (h : expectChar c s = some r) : r.length < s.length := by
  match s with
  | [] => simp [expectChar] at h
  | d :: rest =>
    simp only [expectChar] at h
    split at h
    · injection h with h; subst h; simp
    · exact absurd h (by simp)

theorem toNat_ofNat_valid (n : Nat) (h : n < 55296) :
    (Char.ofNat n).toNat = n := by
  simp only [Char.ofNat, Nat.isValidChar]
  rw [dif_pos (Or.inl h)]
  rfl

theorem asciiLetter_ranges (c : Char) (h : asciiLetter c = true) :
    (97 ≤ c.toNat ∧ c.toNat ≤ 122) ∨ (65 ≤ c.toNat ∧ c.toNat ≤ 90) := by
  simp only [asciiLetter, Bool.or_eq_true, decide_eq_true_eq] at h
  exact h

theorem lowAlpha_lcChar (c : Char) (h : asciiLetter c = true) :
    lowAlpha (lcChar c) = true := by
  rcases asciiLetter_ranges c h with ⟨h1, h2⟩ | ⟨h1, h2⟩
  · have hno : ¬('A' ≤ c ∧ c ≤ 'Z') := by
      intro hc
      have h3 : c.toNat ≤ 90 := hc.2
      omega
    simp only [lcChar, hno, if_false]
    simp only [lowAlpha, Bool.and_eq_true, decide_eq_true_eq]
    exact ⟨h1, h2⟩
  · have hyes : ('A' ≤ c ∧ c ≤ 'Z') := ⟨h1, h2⟩
    simp only [lcChar, hyes, if_true]
    have hofn : (Char.ofNat (c.toNat + 32)).toNat = c.toNat + 32 :=
      toNat_ofNat_valid _ (by omega)
    simp only [lowAlpha, Bool.and_eq_true, decide_eq_true_eq]
    constructor
    · show 97 ≤ (Char.ofNat (c.toNat + 32)).toNat
      rw [hofn]; omega
    · show (Char.ofNat (c.toNat + 32)).toNat ≤ 122
      rw [hofn]; omega

theorem lowAlnum_lcChar (c : Char) (h : asciiAlnum c = true) :
    lowAlnum (lcChar c) = true := by
  simp only [asciiAlnum, Bool.or_eq_true, decide_eq_true_eq] at h
  rcases h with h | ⟨h1, h2⟩
  · simp only [lowAlnum, Bool.or_eq_true]
    exact Or.inl (lowAlpha_lcChar c h)
  · have h1n : 48 ≤ c.toNat := h1
    have h2n : c.toNat ≤ 57 := h2
    have hno : ¬('A' ≤ c ∧ c ≤ 'Z') := by
      intro hc
      have h3 : 65 ≤ c.toNat := hc.1
      omega
    simp only [lcChar, hno, if_false]
    simp only [lowAlnum, Bool.or_eq_true, Bool.and_eq_true, decide_eq_true_eq]
    exact Or.inr ⟨h1, h2⟩

theorem lowAlnum_ranges (c : Char) (h : lowAlnum c = true) :
    (97 ≤ c.toNat ∧ c.toNat ≤ 122) ∨ (48 ≤ c.toNat ∧ c.toNat ≤ 57) := by
  simp only [lowAlnum, lowAlpha, Bool.or_eq_true, Bool.and_eq_true,
    decide_eq_true_eq] at h
  exact h

theorem lowAlnum_lcChar_self (c : Char) (h : lowAlnum c = true) :
    lcChar c = c := by
  rcases lowAlnum_ranges c h with ⟨h1, h2⟩ | ⟨h1, h2⟩ <;>
    · have hno : ¬('A' ≤ c ∧ c ≤ 'Z') := by
        intro hc
        have h3 : 65 ≤ c.toNat := hc.1
        have h4 : c.toNat ≤ 90 := hc.2
        omega
      simp [lcChar, hno]

theorem lowAlnum_ne_special (c : Char) (h : lowAlnum c = true) :
    c ≠ '>' ∧ c ≠ '/' ∧ c ≠ '<' := by
  rcases lowAlnum_ranges c h with ⟨h1, h2⟩ | ⟨h1, h2⟩ <;>
    refine ⟨?_, ?_, ?_⟩ <;>
    · intro he
      subst he
      revert h1 h2
      decide

theorem lowAlnum_asciiAlnum (c : Char) (h : lowAlnum c = true) :
    asciiAlnum c = true := by
  rcases lowAlnum_ranges c h with ⟨h1, h2⟩ | ⟨h1, h2⟩ <;>
    simp only [asciiAlnum, asciiLetter, Bool.or_eq_true, Bool.and_eq_true,
      decide_eq_true_eq]
  · exact Or.inl (Or.inl ⟨h1, h2⟩)
  · exact Or.inr ⟨h1, h2⟩

theorem lowAlpha_asciiLetter (c : Char) (h : lowAlpha c = true) :
    asciiLetter c = true := by
  simp only [lowAlpha, Bool.and_eq_true, decide_eq_true_eq] at h
  simp only [asciiLetter, Bool.or_eq_true, decide_eq_true_eq]
  exact Or.inl h

theorem fieldPatternAt_length_lt (field s r : List Char)
    (h : fieldPatternAt field s = some r) : r.length < s.length := by
  unfold fieldPatternAt at h
  cases e1 : expectChar '"' s with
  | none => rw [e1] at h; simp at h
  | some r1 =>
    rw [e1] at h
    simp only [Option.some_bind] at h
    cases e2 : stripLit field r1 with
    | none => rw [e2] at h; simp at h
    | some r2 =>
      rw [e2] at h
      simp only [Option.some_bind] at h
      cases e3 : expectChar '"' r2 with
      | none => rw [e3] at h; simp at h
      | some r3 =>
        rw [e3] at h
        simp only [Option.some_bind] at h
        cases e4 : expectChar ':' (r3.dropWhile jsWhite) with
        | none => rw [e4] at h; simp at h
        | some r4 =>
          rw [e4] at h
          simp only [Option.some_bind] at h
          have l1 := expectChar_length_lt _ _ _ e1
          have l2 := stripLit_length_le field _ _ e2
          have l3 := expectChar_length_lt _ _ _ e3
          have l4 := expectChar_length_lt _ _ _ e4
          have l5 := expectChar_length_lt _ _ _ h
          have d1 := dropWhile_length_le jsWhite r3
          have d2 := dropWhile_length_le jsWhite r4
          omega


/-! ### Healer lemmas -/

theorem cutAtFirst_of_not_any (p : List Char → Bool) (s : List Char)
    (h : anySuffix p s = false) : cutAtFirst p s = s := by
  induction s with
  | nil => rfl
  | cons c rest ih =>
    simp only [anySuffix, Bool.or_eq_false_iff] at h
    simp [cutAtFirst, h.1, ih h.2]

theorem gtMem_cut_ltTail (s : List Char) (h : '>' ∈ s) :
    '>' ∈ cutAtFirst ltTailMatchAt s := by
  induction s with
  | nil => simp at h
  | cons c rest ih =>
    have hfalse : ltTailMatchAt (c :: rest) = false := by
      by_cases hc : c = '<'
      · subst hc
        have hr : '>' ∈ rest := by simpa using h
        simp [ltTailMatchAt, hr]
      · simp [ltTailMatchAt, hc]
    simp only [cutAtFirst, hfalse, Bool.false_eq_true, if_false]
    by_cases hc : c = '>'
    · subst hc; simp
    · have hr : '>' ∈ rest := by
        rcases List.mem_cons.mp h with h1 | h1
        · exact absurd h1.symm hc
        · exact h1
      exact List.mem_cons_of_mem c (ih hr)

theorem goodTail_cut (s : List Char) :
    goodTail (cutAtFirst ltTailMatchAt s) = true := by
  induction s with
  | nil => rfl
  | cons c rest ih =>
    by_cases hp : ltTailMatchAt (c :: rest) = true
    · simp [cutAtFirst, hp, goodTail]
    · simp only [Bool.not_eq_true] at hp
      simp only [cutAtFirst, hp, Bool.false_eq_true, if_false]
      by_cases hc : c = '<'
      · subst hc
        have hr : '>' ∈ rest := by
          simpa [ltTailMatchAt] using hp
        simp [goodTail, gtMem_cut_ltTail rest hr, ih]
      · simp [goodTail, hc, ih]

theorem scanStep_frame (m : ScanMode) (ts : List TagTok) (c : Char) :
    scanStep ⟨m, ts⟩ c =
      ⟨(scanStep ⟨m, []⟩ c).mode, ts ++ (scanStep ⟨m, []⟩ c).toks⟩ := by
  cases m <;> simp only [scanStep] <;> split_ifs <;> simp

theorem foldl_scan_frame (s : List Char) :
    ∀ (m : ScanMode) (ts : List TagTok),
      s.foldl scanStep ⟨m, ts⟩ =
        ⟨(s.foldl scanStep ⟨m, []⟩).mode, ts ++ (s.foldl scanStep ⟨m, []⟩).toks⟩ := by
  induction s with
  | nil => intro m ts; simp
  | cons c rest ih =>
    intro m ts
    have e1 : scanStep ⟨m, []⟩ c =
        (⟨(scanStep ⟨m, []⟩ c).mode, (scanStep ⟨m, []⟩ c).toks⟩ : ScanSt) := rfl
    simp only [List.foldl_cons]
    rw [scanStep_frame m ts c]
    rw [ih ((scanStep ⟨m, []⟩ c).mode) (ts ++ (scanStep ⟨m, []⟩ c).toks)]
    conv_rhs => rw [e1]
    rw [ih ((scanStep ⟨m, []⟩ c).mode) ((scanStep ⟨m, []⟩ c).toks)]
    simp

theorem foldl_scan_mode_outside (s : List Char) :
    ∀ m : ScanMode, goodTail s = true →
      (m = .outside ∨ '>' ∈ s) →
      (s.foldl scanStep ⟨m, []⟩).mode = .outside := by
  induction s with
  | nil =>
    intro m _ hm
    rcases hm with hm | hm
    · subst hm; rfl
    · simp at hm
  | cons c rest ih =>
    intro m hg hm
    simp only [goodTail, Bool.and_eq_true] at hg
    obtain ⟨hg1, hg2⟩ := hg
    have hnext : (scanStep ⟨m, []⟩ c).mode = .outside ∨ '>' ∈ rest := by
      by_cases hcgt : c = '>'
      · subst hcgt
        left
        cases m <;> simp [scanStep, asciiLetter]
      · rcases hm with hm | hm
        · subst hm
          by_cases hlt : c = '<'
          · subst hlt
            right
            simpa using hg1
          · left
            simp [scanStep, hlt]
        · right
          rcases List.mem_cons.mp hm with h1 | h1
          · exact absurd h1.symm hcgt
          · exact h1
    simp only [List.foldl_cons]
    rw [show scanStep ⟨m, []⟩ c =
        (⟨(scanStep ⟨m, []⟩ c).mode, (scanStep ⟨m, []⟩ c).toks⟩ : ScanSt) from rfl,
      foldl_scan_frame]
    exact ih _ hg2 hnext

theorem mkData (s : String) : String.mk s.data = s := rfl

theorem goodNameChars_append (acc : List Char) (x : Char)
    (h : goodNameChars acc = true) (hx : lowAlnum x = true) :
    goodNameChars (acc ++ [x]) = true := by
  match acc with
  | [] => simp [goodNameChars] at h
  | c :: cs =>
    simp only [goodNameChars, Bool.and_eq_true] at h
    simp only [List.cons_append, goodNameChars, Bool.and_eq_true]
    refine ⟨h.1, ?_⟩
    simp [List.all_append, h.2, hx]

theorem scanStep_inv (σ : ScanSt) (c : Char)
    (hm : modeInv σ.mode)
    (ht : ∀ t ∈ σ.toks, goodNameChars t.name.data = true) :
    modeInv (scanStep σ c).mode ∧
      ∀ t ∈ (scanStep σ c).toks, goodNameChars t.name.data = true := by
  obtain ⟨m, ts⟩ := σ
  cases m with
  | outside =>
    by_cases hc : c = '<' <;> simp_all [scanStep, modeInv]
  | afterLt =>
    simp only [scanStep]
    split_ifs with h1 h2 h3
    · exact ⟨trivial, ht⟩
    · exact ⟨trivial, ht⟩
    · refine ⟨?_, ht⟩
      show goodNameChars [lcChar c] = true
      simp [goodNameChars, lowAlpha_lcChar c h3]
    · exact ⟨trivial, ht⟩
  | afterLtSlash =>
    simp only [scanStep]
    split_ifs with h1 h2
    · exact ⟨trivial, ht⟩
    · refine ⟨?_, ht⟩
      show goodNameChars [lcChar c] = true
      simp [goodNameChars, lowAlpha_lcChar c h2]
    · exact ⟨trivial, ht⟩
  | inTag isClose nameAcc nameOpen lastSlash =>
    have hacc : goodNameChars nameAcc = true := hm
    simp only [scanStep]
    split_ifs with h1 h2
    · refine ⟨trivial, ?_⟩
      intro t htmem
      rcases List.mem_append.mp htmem with hmem | hmem
      · exact ht t hmem
      · simp only [List.mem_singleton] at hmem
        subst hmem
        simpa using hacc
    · refine ⟨?_, ht⟩
      show goodNameChars (nameAcc ++ [lcChar c]) = true
      have hc : asciiAlnum c = true := (Bool.and_eq_true _ _ |>.mp h2).2
      exact goodNameChars_append _ _ hacc (lowAlnum_lcChar c hc)
    · exact ⟨hacc, ht⟩

theorem foldl_scan_inv (s : List Char) :
    ∀ σ : ScanSt, modeInv σ.mode →
      (∀ t ∈ σ.toks, goodNameChars t.name.data = true) →
      modeInv ((s.foldl scanStep σ).mode) ∧
        ∀ t ∈ (s.foldl scanStep σ).toks, goodNameChars t.name.data = true := by
  induction s with
  | nil => intro σ hm ht; exact ⟨hm, ht⟩
  | cons c rest ih =>
    intro σ hm ht
    have h1 := scanStep_inv σ c hm ht
    simpa using ih (scanStep σ c) h1.1 h1.2

theorem tagToks_names_good (s : List Char) :
    ∀ t ∈ tagToks s, goodNameChars t.name.data = true :=
  (foldl_scan_inv s ⟨.outside, []⟩ trivial (by simp)).2

theorem foldl_stackStep_good (toks : List TagTok) :
    ∀ st : List String,
      (∀ t ∈ toks, goodNameChars t.name.data = true) →
      (∀ x ∈ st, goodStackElem x = true) →
      ∀ x ∈ toks.foldl stackStep st, goodStackElem x = true := by
  induction toks with
  | nil => intro st _ hst; simpa using hst
  | cons t rest ih =>
    intro st htoks hst
    have htn : goodNameChars t.name.data = true := htoks t (by simp)
    have hstep : ∀ x ∈ stackStep st t, goodStackElem x = true := by
      by_cases h1 : (selfClosing.contains t.name || complexTags.contains t.name) = true
      · simp only [stackStep, h1, if_true]
        exact hst
      · simp only [Bool.not_eq_true] at h1
        simp only [stackStep, h1, Bool.false_eq_true, if_false]
        have hgoodname : goodStackElem t.name = true := by
          simp only [Bool.or_eq_false_iff] at h1
          simp only [goodStackElem, htn, Bool.true_and, Bool.and_eq_true,
            Bool.not_eq_true']
          exact ⟨h1.1, h1.2⟩
        by_cases h2 : t.isClose = true
        · simp only [h2, if_true]
          cases st with
          | nil => exact hst
          | cons top rest2 =>
            by_cases h3 : top = t.name
            · simp only [h3, if_true]
              intro x hx
              exact hst x (List.mem_cons_of_mem top hx)
            · simp only [h3, if_false]
              exact hst
        · simp only [h2, Bool.false_eq_true, if_false]
          by_cases h4 : t.isSelfClose = true
          · simp only [h4, if_true]
            exact hst
          · simp only [h4, Bool.false_eq_true, if_false]
            intro x hx
            rcases List.mem_cons.mp hx with hx | hx
            · subst hx; exact hgoodname
            · exact hst x hx
    simp only [List.foldl_cons]
    exact ih (stackStep st t) (fun u hu => htoks u (List.mem_cons_of_mem t hu)) hstep

theorem openStack_good (s : List Char) :
    ∀ x ∈ openStack s, goodStackElem x = true :=
  foldl_stackStep_good (tagToks s) [] (tagToks_names_good s) (by simp)

theorem scan_name_tail (cs : List Char) :
    ∀ (acc : List Char) (isClose : Bool) (ts : List TagTok),
      cs.all lowAlnum = true →
      cs.foldl scanStep ⟨.inTag isClose acc true false, ts⟩ =
        ⟨.inTag isClose (acc ++ cs) true false, ts⟩ := by
  induction cs with
  | nil => intro acc isClose ts _; simp
  | cons c rest ih =>
    intro acc isClose ts hall
    simp only [List.all_cons, Bool.and_eq_true] at hall
    obtain ⟨hc, hrest⟩ := hall
    obtain ⟨hgt, hsl, hlt⟩ := lowAlnum_ne_special c hc
    have hstep : scanStep ⟨.inTag isClose acc true false, ts⟩ c =
        ⟨.inTag isClose (acc ++ [c]) true false, ts⟩ := by
      simp [scanStep, hgt, hsl, lowAlnum_asciiAlnum c hc, lowAlnum_lcChar_self c hc]
    simp only [List.foldl_cons, hstep]
    rw [ih (acc ++ [c]) isClose ts hrest]
    simp

theorem scan_one_closer (t : String) (ht : goodNameChars t.data = true)
    (ts : List TagTok) :
    ('<' :: '/' :: (t.data ++ ['>'])).foldl scanStep ⟨.outside, ts⟩ =
      ⟨.outside, ts ++ [closeTok t]⟩ := by
  match hdata : t.data with
  | [] => rw [hdata] at ht; simp [goodNameChars] at ht
  | c :: cs =>
    rw [hdata] at ht
    simp only [goodNameChars, Bool.and_eq_true] at ht
    obtain ⟨hca, hcs⟩ := ht
    have hcn : lowAlnum c = true := by simp [lowAlnum, hca]
    obtain ⟨hgt, hsl, hlt⟩ := lowAlnum_ne_special c hcn
    simp only [List.foldl_cons]
    rw [show scanStep ⟨.outside, ts⟩ '<' = ⟨.afterLt, ts⟩ from by simp [scanStep]]
    rw [show scanStep ⟨.afterLt, ts⟩ '/' = ⟨.afterLtSlash, ts⟩ from by
      simp [scanStep]]
    simp only [List.cons_append, List.foldl_cons]
    rw [show scanStep ⟨.afterLtSlash, ts⟩ c = ⟨.inTag true [c] true false, ts⟩ from by
      simp [scanStep, hlt, lowAlpha_asciiLetter c hca, lowAlnum_lcChar_self c hcn]]
    rw [List.foldl_append, scan_name_tail cs [c] true ts hcs]
    rw [show ('>' :: []).foldl scanStep ⟨.inTag true ([c] ++ cs) true false, ts⟩ =
        ⟨.outside, ts ++ [⟨true, false, String.mk ([c] ++ cs)⟩]⟩ from by
      simp [scanStep]]
    simp only [List.singleton_append, closeTok]
    rw [← hdata, mkData]

theorem scan_closers (st : List String) :
    ∀ ts, (∀ x ∈ st, goodStackElem x = true) →
      (closersFor st).foldl scanStep ⟨.outside, ts⟩ =
        ⟨.outside, ts ++ st.map closeTok⟩ := by
  induction st with
  | nil => intro ts _; simp [closersFor]
  | cons t rest ih =>
    intro ts hst
    have hgood : goodStackElem t = true := hst t (by simp)
    have htd : goodNameChars t.data = true := by
      simp only [goodStackElem, Bool.and_eq_true] at hgood
      exact hgood.1.1
    have hsplit : closersFor (t :: rest) =
        ('<' :: '/' :: (t.data ++ ['>'])) ++ closersFor rest := by
      simp [closersFor]
    rw [hsplit, List.foldl_append, scan_one_closer t htd ts]
    rw [ih (ts ++ [closeTok t]) (fun x hx => hst x (List.mem_cons_of_mem t hx))]
    simp

theorem foldl_stackStep_closers (st : List String)
    (h : ∀ x ∈ st, goodStackElem x = true) :
    (st.map closeTok).foldl stackStep st = [] := by
  induction st with
  | nil => rfl
  | cons t rest ih =>
    have hgood : goodStackElem t = true := h t (by simp)
    simp only [goodStackElem, Bool.and_eq_true, Bool.not_eq_true'] at hgood
    obtain ⟨⟨hn, h1⟩, h2⟩ := hgood
    have hstep : stackStep (t :: rest) (closeTok t) = rest := by
      have h1m : t ∉ selfClosing := by simpa using h1
      have h2m : t ∉ complexTags := by simpa using h2
      simp [stackStep, closeTok, h1m, h2m]
    simp only [List.map_cons, List.foldl_cons, hstep]
    exact ih (fun x hx => h x (List.mem_cons_of_mem t hx))

/-! ### Mutation-executor and store lemmas -/

theorem applyOne_frame (out : ApplyOut) (m : DomMutation) :
    applyOne out m =
      ⟨(applyOne ⟨out.doc, [], 0, 0⟩ m).doc,
       out.details ++ (applyOne ⟨out.doc, [], 0, 0⟩ m).details,
       out.totalTargets + (applyOne ⟨out.doc, [], 0, 0⟩ m).totalTargets,
       out.totalApplied + (applyOne ⟨out.doc, [], 0, 0⟩ m).totalApplied⟩ := by
  cases h : parseSelector m.selOf with
  | error e => simp [applyOne, h]
  | ok sel => simp [applyOne, h]

theorem foldl_applyOne_split (muts : List DomMutation) :
    ∀ st : ApplyOut,
      muts.foldl applyOne st =
        ⟨(applyMutations st.doc muts).doc,
         st.details ++ (applyMutations st.doc muts).details,
         st.totalTargets + (applyMutations st.doc muts).totalTargets,
         st.totalApplied + (applyMutations st.doc muts).totalApplied⟩ := by
  induction muts with
  | nil => intro st; simp [applyMutations]
  | cons m rest ih =>
    intro st
    simp only [List.foldl_cons]
    rw [ih (applyOne st m)]
    conv_rhs => rw [applyMutations, List.foldl_cons]
    rw [ih (applyOne ⟨st.doc, [], 0, 0⟩ m)]
    rw [applyOne_frame st m]
    simp [List.append_assoc, Nat.add_assoc]

theorem applyMutations_details_length (muts : List DomMutation) :
    ∀ doc : HNode, (applyMutations doc muts).details.length = muts.length := by
  induction muts with
  | nil => intro doc; rfl
  | cons m rest ih =>
    intro doc
    rw [applyMutations, List.foldl_cons,
      foldl_applyOne_split rest (applyOne ⟨doc, [], 0, 0⟩ m)]
    cases h : parseSelector m.selOf with
    | error e => simp [applyOne, h, ih]
    | ok sel => simp [applyOne, h, ih]

theorem applyMutations_cons_error (bad : DomMutation) (post : List DomMutation)
    (e : String) (he : parseSelector bad.selOf = .error e) (d : HNode) :
    applyMutations d (bad :: post) =
      ⟨(applyMutations d post).doc,
       ⟨bad.actionName, bad.selOf, 0, 0, some e⟩ :: (applyMutations d post).details,
       (applyMutations d post).totalTargets,
       (applyMutations d post).totalApplied⟩ := by
  rw [applyMutations, List.foldl_cons]
  have hbad : applyOne ⟨d, [], 0, 0⟩ bad =
      ⟨d, [⟨bad.actionName, bad.selOf, 0, 0, some e⟩], 0, 0⟩ := by
    simp [applyOne, he]
  rw [hbad, foldl_applyOne_split post]
  simp [applyMutations]

theorem applyMutations_recovers (doc : HNode) (pre post : List DomMutation)
    (bad : DomMutation) (e : String) (he : parseSelector bad.selOf = .error e) :
    applyMutations doc (pre ++ bad :: post) =
      ⟨(applyMutations (applyMutations doc pre).doc post).doc,
       (applyMutations doc pre).details ++
         ⟨bad.actionName, bad.selOf, 0, 0, some e⟩ ::
           (applyMutations (applyMutations doc pre).doc post).details,
       (applyMutations doc pre).totalTargets +
         (applyMutations (applyMutations doc pre).doc post).totalTargets,
       (applyMutations doc pre).totalApplied +
         (applyMutations (applyMutations doc pre).doc post).totalApplied⟩ := by
  rw [applyMutations, List.foldl_append,
    foldl_applyOne_split (bad :: post) (pre.foldl applyOne ⟨doc, [], 0, 0⟩)]
  have hpre : pre.foldl applyOne ⟨doc, [], 0, 0⟩ = applyMutations doc pre := rfl
  rw [hpre, applyMutations_cons_error bad post e he]

theorem filter_length_pos_zero (dets : List MutDetail) :
    dets.length - (dets.filter (fun d => 0 < d.applied)).length =
      (dets.filter (fun d => d.applied = 0)).length := by
  induction dets with
  | nil => rfl
  | cons d rest ih =>
    have hle := List.length_filter_le (fun d => 0 < d.applied) rest
    by_cases hd : d.applied = 0
    · have hpos : ¬ (0 < d.applied) := by omega
      simp only [List.filter_cons, hd, hpos]
      simp only [decide_eq_true_eq]
      rw [if_neg (by simp), if_pos (by simp)]
      simp only [List.length_cons]
      omega
    · have hpos : 0 < d.applied := by omega
      simp only [List.filter_cons]
      rw [if_pos (by simpa using hpos), if_neg (by simpa using hd)]
      simp only [List.length_cons]
      omega

theorem findNode_map_update (nodes : List WinNode) (nid h2 : String)
    (n : WinNode) (hf : findNode nodes nid = some n) :
    findNode (nodes.map (fun m =>
        if m.id = nid then { m with html := h2 } else m)) nid =
      some { n with html := h2 } := by
  induction nodes with
  | nil => simp [findNode] at hf
  | cons m rest ih =>
    unfold findNode at hf ⊢
    by_cases hm : m.id = nid
    · rw [List.find?_cons_of_pos _ (by simp [hm])] at hf
      injection hf with hf
      subst hf
      simp only [List.map_cons, if_pos hm]
      rw [List.find?_cons_of_pos _ (by simp [hm])]
    · rw [List.find?_cons_of_neg _ (by simp [hm])] at hf
      simp only [List.map_cons, if_neg hm]
      rw [List.find?_cons_of_neg _ (by simp [hm])]
      exact ih hf

theorem freshWindowId_fresh (used : List (String × String)) :
    ∀ (sup : List String) (wid : String),
      freshWindowId used sup = some wid → lookupA wid used = none := by
  intro sup
  induction sup with
  | nil => intro wid h; simp [freshWindowId] at h
  | cons c rest ih =>
    intro wid h
    unfold freshWindowId at h
    cases hl : lookupA c used with
    | some v => rw [hl] at h; exact ih wid h
    | none =>
      rw [hl] at h
      injection h with h
      subst h
      exact hl

theorem keys_nodup_setA_fresh (l : List (String × String)) (k v : String)
    (h : lookupA k l = none) (hn : (l.map Prod.fst).Nodup) :
    ((setA k v l).map Prod.fst).Nodup := by
  rw [setA_of_notMem k v l h, List.map_append]
  rw [List.nodup_append]
  refine ⟨hn, by simp, ?_⟩
  intro x hx
  simp only [List.map_cons, List.map_nil, List.mem_singleton]
  intro hk
  subst hk
  exact (lookupA_none_notMem _ l h) hx

theorem createNewWindow_spec (store : AppStore) (sup : List String)
    (nid name html : String) (r : CreateResult) (st2 : AppStore)
    (hc : createNewWindow store sup nid name html = some (r, st2)) :
    r.finalName = freshName store.nameToNodeId name ∧
    freshWindowId store.windowIdToNodeId sup = some r.windowId ∧
    st2.nameToNodeId = setA r.finalName r.nodeId store.nameToNodeId ∧
    st2.windowIdToNodeId = setA r.windowId r.nodeId store.windowIdToNodeId := by
  cases hfw : freshWindowId store.windowIdToNodeId sup with
  | none => simp [createNewWindow, hfw] at hc
  | some wid =>
    cases hp : lookupA name store.provisionalNameToNodeId with
    | some pid =>
      simp only [createNewWindow, hfw, hp, Option.some.injEq, Prod.mk.injEq] at hc
      obtain ⟨hr, hs⟩ := hc
      subst hr
      subst hs
      exact ⟨rfl, rfl, rfl, rfl⟩
    | none =>
      simp only [createNewWindow, hfw, hp, Option.some.injEq, Prod.mk.injEq] at hc
      obtain ⟨hr, hs⟩ := hc
      subst hr
      subst hs
      exact ⟨rfl, rfl, rfl, rfl⟩

/-! ### Orchestration-loop lemmas -/

theorem foldl_tdStep_frame (l : List AgentEvent) :
    ∀ acc, l.foldl tdStep acc = acc ++ l.foldl tdStep "" := by
  induction l with
  | nil => intro acc; simp
  | cons e rest ih =>
    intro acc
    simp only [List.foldl_cons]
    rw [ih (tdStep acc e), ih (tdStep "" e)]
    cases e <;> simp [tdStep, String.append_assoc]

theorem concatTextDeltas_append (a b : List AgentEvent) :
    concatTextDeltas (a ++ b) = concatTextDeltas a ++ concatTextDeltas b := by
  unfold concatTextDeltas
  rw [List.foldl_append, foldl_tdStep_frame b (a.foldl tdStep "")]

theorem silent_events_neutral (evs : List AgentEvent)
    (h : evs.all silentEv = true) :
    evs.filter isFinishEv = [] ∧ evs.filter isFinishStepEv = [] ∧
      concatTextDeltas evs = "" := by
  induction evs with
  | nil => exact ⟨rfl, rfl, rfl⟩
  | cons e rest ih =>
    simp only [List.all_cons, Bool.and_eq_true] at h
    obtain ⟨he, hrest⟩ := h
    obtain ⟨ih1, ih2, ih3⟩ := ih hrest
    have hf : isFinishEv e = false := by
      cases e <;> simp_all [silentEv, isFinishEv]
    have hs : isFinishStepEv e = false := by
      cases e <;> simp_all [silentEv, isFinishStepEv]
    have ht : tdStep "" e = "" := by
      cases e <;> simp_all [silentEv, tdStep]
    refine ⟨?_, ?_, ?_⟩
    · simp [List.filter_cons, hf, ih1]
    · simp [List.filter_cons, hs, ih2]
    · unfold concatTextDeltas
      simp only [List.foldl_cons]
      rw [foldl_tdStep_frame rest (tdStep "" e), ht]
      simpa [concatTextDeltas] using ih3

theorem applyToolDelta_shape (step : Nat) (r : StepRun) (tc : ToolCallDelta) :
    ∃ evs, (applyToolDelta step r tc).events = r.events ++ evs ∧
      evs.all silentEv = true ∧
      (applyToolDelta step r tc).stepText = r.stepText := by
  unfold applyToolDelta
  dsimp only
  split_ifs <;> exact ⟨_, rfl, by simp [silentEv], rfl⟩

theorem foldl_applyToolDelta_shape (tcs : List ToolCallDelta) (step : Nat) :
    ∀ r : StepRun,
      ∃ evs, (tcs.foldl (applyToolDelta step) r).events = r.events ++ evs ∧
        evs.all silentEv = true ∧
        (tcs.foldl (applyToolDelta step) r).stepText = r.stepText := by
  induction tcs with
  | nil => intro r; exact ⟨[], by simp, rfl, rfl⟩
  | cons tc rest ih =>
    intro r
    obtain ⟨evs1, he1, hs1, ht1⟩ := applyToolDelta_shape step r tc
    obtain ⟨evs2, he2, hs2, ht2⟩ := ih (applyToolDelta step r tc)
    refine ⟨evs1 ++ evs2, ?_, ?_, ?_⟩
    · simp only [List.foldl_cons, he2, he1, List.append_assoc]
    · simp [List.all_append, hs1, hs2]
    · simp only [List.foldl_cons, ht2, ht1]

theorem processChunk_inv (step : Nat) (ch : Chunk) :
    ∀ r : StepRun, stepInv r → stepInv (processChunk step r ch) := by
  intro r h
  unfold processChunk
  have hA : ∀ r' : StepRun, stepInv r' →
      stepInv (match ch.toolCalls with
        | some tcs => tcs.foldl (applyToolDelta step) r'
        | none => r') := by
    intro r' hr'
    cases ch.toolCalls with
    | none => exact hr'
    | some tcs =>
      obtain ⟨evs, he, hs, ht⟩ := foldl_applyToolDelta_shape tcs step r'
      obtain ⟨s1, s2, s3⟩ := silent_events_neutral evs hs
      obtain ⟨r1, r2, r3⟩ := hr'
      refine ⟨?_, ?_, ?_⟩
      · rw [he, List.filter_append, r1, s1]; rfl
      · rw [he, List.filter_append, r2, s2]; rfl
      · rw [he, concatTextDeltas_append, r3, s3, ht]; simp
  have hU : ∀ r' : StepRun, stepInv r' →
      stepInv (match ch.usage with
        | some u => { r' with chunkUsage := some u }
        | none => r') := by
    intro r' hr'
    cases ch.usage with
    | none => exact hr'
    | some u => exact hr'
  apply hU
  apply hA
  cases htd : ch.textDelta with
  | none => exact h
  | some t =>
    dsimp only
    obtain ⟨h1, h2, h3⟩ := h
    by_cases ht : t = ""
    · subst ht
      simp only [ne_eq, not_true_eq_false, if_false]
      exact ⟨h1, h2, h3⟩
    · rw [if_pos ht]
      refine ⟨?_, ?_, ?_⟩
      · simp [List.filter_append, h1, isFinishEv]
      · simp [List.filter_append, h2, isFinishStepEv]
      · rw [concatTextDeltas_append, h3]
        simp [concatTextDeltas, tdStep]

theorem processStep_inv (step : Nat) (o : StepOutcome) :
    stepInv (processStep step o) := by
  unfold processStep
  have hgen : ∀ (chs : List Chunk) (r : StepRun), stepInv r →
      stepInv (chs.foldl (processChunk step) r) := by
    intro chs
    induction chs with
    | nil => intro r h; exact h
    | cons c rest ih => intro r h; exact ih _ (processChunk_inv step c r h)
  exact hgen o.chunks ⟨[], "", [], none⟩ ⟨rfl, rfl, rfl⟩

theorem toolResult_events_silent (results : List ToolResultRec) :
    (results.map (fun rr =>
      AgentEvent.toolResult rr.toolCallId rr.toolName rr.output)).all
        silentEv = true := by
  induction results with
  | nil => rfl
  | cons rr rest ih => simp [silentEv, ih]

theorem agentGo_length_spec (execTool : String → String → String)
    (steps : Nat → StepOutcome) :
    ∀ (fuel step : Nat) (finalText : String) (events : List AgentEvent)
      (agg : List ToolResultRec) (pt ct : Nat),
      (∀ i, step ≤ i → i < step + fuel →
        execCallsOf (processStep i (steps i)).tstate ≠ []) →
      finalText = concatTextDeltas events →
      events.filter isFinishEv = [] →
      (agentGo execTool steps fuel step finalText events none none agg pt
          ct).events.getLast? = some (.finish "length") ∧
      (agentGo execTool steps fuel step finalText events none none agg pt
          ct).events.filter isFinishEv = [.finish "length"] ∧
      ((agentGo execTool steps fuel step finalText events none none agg pt
          ct).events.filter isFinishStepEv).length =
        (events.filter isFinishStepEv).length + fuel ∧
      (agentGo execTool steps fuel step finalText events none none agg pt
          ct).text =
        some (concatTextDeltas
          (agentGo execTool steps fuel step finalText events none none agg pt
            ct).events) := by
  intro fuel
  induction fuel with
  | zero =>
    intro step finalText events agg pt ct _ hText hNoFin
    unfold agentGo agentFinale
    refine ⟨?_, ?_, ?_, ?_⟩
    · exact List.getLast?_concat _
    · simp [List.filter_append, hNoFin, isFinishEv]
    · simp [List.filter_append, isFinishStepEv]
    · simp only [resolveCell]
      rw [concatTextDeltas_append, hText]
      simp [concatTextDeltas, tdStep]
  | succ f ih =>
    intro step finalText events agg pt ct hCalls hText hNoFin
    have hne : execCallsOf (processStep step (steps step)).tstate ≠ [] :=
      hCalls step (Nat.le_refl step) (by omega)
    have hEmpty : (execCallsOf (processStep step (steps step)).tstate).isEmpty
        = false := by
      cases hcase : execCallsOf (processStep step (steps step)).tstate with
      | nil => exact absurd hcase hne
      | cons a l => rfl
    obtain ⟨p1, p2, p3⟩ := processStep_inv step (steps step)
    unfold agentGo
    dsimp only
    rw [if_neg (by simp [hEmpty])]
    have hres := toolResult_events_silent
      ((execCallsOf (processStep step (steps step)).tstate).map (fun c =>
        (⟨c.id, c.fname.getD "", execTool (c.fname.getD "") c.argsText⟩ :
          ToolResultRec)))
    obtain ⟨s1, s2, s3⟩ := silent_events_neutral _ hres
    have hText2 : finalText ++ (processStep step (steps step)).stepText =
        concatTextDeltas
          ((events ++ (processStep step (steps step)).events ++
            ((execCallsOf (processStep step (steps step)).tstate).map (fun c =>
              (⟨c.id, c.fname.getD "", execTool (c.fname.getD "") c.argsText⟩ :
                ToolResultRec))).map (fun rr =>
                  AgentEvent.toolResult rr.toolCallId rr.toolName rr.output)
            ++ [AgentEvent.finishStep])) := by
      rw [concatTextDeltas_append, concatTextDeltas_append,
        concatTextDeltas_append, hText, p3, s3]
      simp [concatTextDeltas, tdStep]
    have hNoFin2 : ((events ++ (processStep step (steps step)).events ++
        ((execCallsOf (processStep step (steps step)).tstate).map (fun c =>
          (⟨c.id, c.fname.getD "", execTool (c.fname.getD "") c.argsText⟩ :
            ToolResultRec))).map (fun rr =>
              AgentEvent.toolResult rr.toolCallId rr.toolName rr.output)
        ++ [AgentEvent.finishStep])).filter isFinishEv = [] := by
      simp [List.filter_append, hNoFin, p1, s1, isFinishEv]
    have hCalls2 : ∀ i, step + 1 ≤ i → i < (step + 1) + f →
        execCallsOf (processStep i (steps i)).tstate ≠ [] := by
      intro i hi1 hi2
      exact hCalls i (by omega) (by omega)
    obtain ⟨c1, c2, c3, c4⟩ := ih (step + 1)
      (finalText ++ (processStep step (steps step)).stepText)
      _ (agg ++ _) _ _ hCalls2 hText2 hNoFin2
    refine ⟨c1, c2, ?_, c4⟩
    rw [c3, List.filter_append, List.filter_append, List.filter_append, p2, s2]
    simp [isFinishStepEv]
    omega

/-! ## Claim theorems -/

/-- C1, counterexample: the claim says that with the field pattern present
but no closing quote received yet, the extractor returns none; on the
buffer consisting of `"html":"<div` (pattern present, value still open)
it in fact returns the truncated span `<div`, because the scan loop falls
off the buffer end and the accumulated span is returned unconditionally. -/
theorem extractLatest_truncated_counterexample :
    extractLatestJsonStringField "\"html\":\"<div" "html" = some "<div" := by
  rfl

/-- C1 (amended): `extractLatestJsonStringField(B, F)` returns none exactly
when the `"F":"` pattern does not occur in `B`; whenever the pattern occurs
it returns a value — if no unescaped closing quote has been received, that
value is the (unescaped) span accumulated so far rather than none. -/
theorem extractLatest_none_iff_pattern_absent (B F : String) :
    extractLatestJsonStringField B F = none ↔
      lastFieldRemainder F.data B.data = none := by
  unfold extractLatestJsonStringField
  cases lastFieldRemainder F.data B.data <;> simp

/-- C2: for every input prefix, the healed output drops unterminated
raw-text blocks and the trailing incomplete tag start, appends closing
tags for the names remaining on the stack in innermost-first order (the
second conjunct restates the pipeline), and the result is balanced: the
tag-stack walk of the output leaves an empty stack, i.e. every non-void
element tag opened in the output is closed. -/
theorem healHtmlStream_wellFormed (p : String) :
    openStack (healHtmlStream p).data = [] ∧
    (healHtmlStream p).data =
      dropIncompleteTail (dropRawBlocks p.data) ++
        closersFor (openStack (dropIncompleteTail (dropRawBlocks p.data))) := by
  refine ⟨?_, rfl⟩
  have hgood : goodTail (dropIncompleteTail (dropRawBlocks p.data)) = true :=
    goodTail_cut _
  have hmode :
      (((dropIncompleteTail (dropRawBlocks p.data)).foldl scanStep
          ⟨.outside, []⟩)).mode = .outside :=
    foldl_scan_mode_outside _ .outside hgood (Or.inl rfl)
  have hstgood := openStack_good (dropIncompleteTail (dropRawBlocks p.data))
  have hfold1 : (dropIncompleteTail (dropRawBlocks p.data)).foldl scanStep
      ⟨.outside, []⟩ =
      ⟨.outside, tagToks (dropIncompleteTail (dropRawBlocks p.data))⟩ := by
    rw [show (dropIncompleteTail (dropRawBlocks p.data)).foldl scanStep
        ⟨.outside, []⟩ =
        (⟨((dropIncompleteTail (dropRawBlocks p.data)).foldl scanStep
            ⟨.outside, []⟩).mode,
          ((dropIncompleteTail (dropRawBlocks p.data)).foldl scanStep
            ⟨.outside, []⟩).toks⟩ : ScanSt) from rfl]
    rw [hmode]
    rfl
  have htoks : tagToks (healChars p.data) =
      tagToks (dropIncompleteTail (dropRawBlocks p.data)) ++
        (openStack (dropIncompleteTail (dropRawBlocks p.data))).map closeTok := by
    show ((healChars p.data).foldl scanStep ⟨.outside, []⟩).toks = _
    unfold healChars
    rw [List.foldl_append, hfold1, scan_closers _ _ hstgood]
  show openStack (healChars p.data) = []
  show (tagToks (healChars p.data)).foldl stackStep [] = []
  rw [htoks, List.foldl_append]
  exact foldl_stackStep_closers _ hstgood

/-- C8: on a complete, already-valid document — no unterminated script or
style block, no incomplete script/style open tag, no trailing incomplete
tag start, and a balanced tag walk — the healer returns its input
unchanged. -/
theorem healHtmlStream_id_on_complete (d : String)
    (h1 : anySuffix (rawBlockMatchAt "script".data) d.data = false)
    (h2 : anySuffix (openTailMatchAt "script".data) d.data = false)
    (h3 : anySuffix (rawBlockMatchAt "style".data) d.data = false)
    (h4 : anySuffix (openTailMatchAt "style".data) d.data = false)
    (h5 : anySuffix ltTailMatchAt d.data = false)
    (h6 : openStack d.data = []) :
    healHtmlStream d = d := by
  unfold healHtmlStream healChars
  have hraw : dropRawBlocks d.data = d.data := by
    unfold dropRawBlocks
    simp only [complexTags, List.foldl_cons, List.foldl_nil]
    unfold cutRawFor
    rw [cutAtFirst_of_not_any _ _ h1, cutAtFirst_of_not_any _ _ h2,
      cutAtFirst_of_not_any _ _ h3, cutAtFirst_of_not_any _ _ h4]
  have htail : dropIncompleteTail d.data = d.data :=
    cutAtFirst_of_not_any _ _ h5
  rw [hraw, htail, h6]
  simp [closersFor, mkData]

/-- C8 witness: a concrete complete document is returned unchanged. -/
theorem healHtmlStream_id_witness :
    healHtmlStream "<html><head></head><body><div>hi</div></body></html>" =
      "<html><head></head><body><div>hi</div></body></html>" :=
  healHtmlStream_id_on_complete _ (by decide) (by decide) (by decide)
    (by decide) (by decide) (by decide)

/-- C3: when every one of the twelve steps produces executable tool
calls, the loop runs exactly 12 steps (12 `finish-step` events), the
event stream ends with its only finish event, whose reason is `length`,
and the deferred text resolves to the concatenation of all text deltas
emitted across all steps. -/
theorem runAgent_length_on_twelve_tool_steps
    (execTool : String → String → String) (steps : Nat → StepOutcome)
    (h : ∀ i, i < 12 → execCallsOf (processStep i (steps i)).tstate ≠ []) :
    (runAgentEvents execTool steps).events.getLast? =
      some (.finish "length") ∧
    (runAgentEvents execTool steps).events.filter isFinishEv =
      [.finish "length"] ∧
    ((runAgentEvents execTool steps).events.filter isFinishStepEv).length = 12 ∧
    (runAgentEvents execTool steps).text =
      some (concatTextDeltas (runAgentEvents execTool steps).events) := by
  have hspec := agentGo_length_spec execTool steps 12 0 "" [] [] 0 0
    (by intro i _ hi2; exact h i (by omega)) rfl rfl
  exact ⟨hspec.1, hspec.2.1, by simpa using hspec.2.2.1, hspec.2.2.2⟩

/-- C3 witness: a transport whose every step streams one text delta and
one complete tool call. -/
theorem runAgent_length_on_twelve_tool_steps_witness :
    (∀ i, i < 12 → execCallsOf (processStep i
      ((fun _ => (⟨[⟨some "x", some [⟨0, some "id1", some "t", some "arg"⟩],
        none⟩], none⟩ : StepOutcome)) i)).tstate ≠ []) ∧
    ((runAgentEvents (fun n a => n ++ ":" ++ a)
        (fun _ => ⟨[⟨some "x", some [⟨0, some "id1", some "t", some "arg"⟩],
          none⟩], none⟩)).events.filter isFinishStepEv).length = 12 ∧
    (runAgentEvents (fun n a => n ++ ":" ++ a)
        (fun _ => ⟨[⟨some "x", some [⟨0, some "id1", some "t", some "arg"⟩],
          none⟩], none⟩)).events.getLast? = some (.finish "length") ∧
    (runAgentEvents (fun n a => n ++ ":" ++ a)
        (fun _ => ⟨[⟨some "x", some [⟨0, some "id1", some "t", some "arg"⟩],
          none⟩], none⟩)).text =
      some (concatTextDeltas (runAgentEvents (fun n a => n ++ ":" ++ a)
        (fun _ => ⟨[⟨some "x", some [⟨0, some "id1", some "t", some "arg"⟩],
          none⟩], none⟩)).events) :=
  ⟨by decide,
   (runAgent_length_on_twelve_tool_steps (fun n a => n ++ ":" ++ a)
     (fun _ => ⟨[⟨some "x", some [⟨0, some "id1", some "t", some "arg"⟩],
       none⟩], none⟩) (by decide)).2.2.1,
   (runAgent_length_on_twelve_tool_steps (fun n a => n ++ ":" ++ a)
     (fun _ => ⟨[⟨some "x", some [⟨0, some "id1", some "t", some "arg"⟩],
       none⟩], none⟩) (by decide)).1,
   (runAgent_length_on_twelve_tool_steps (fun n a => n ++ ":" ++ a)
     (fun _ => ⟨[⟨some "x", some [⟨0, some "id1", some "t", some "arg"⟩],
       none⟩], none⟩) (by decide)).2.2.2⟩

/-- C4 (code bug): on a step with zero tool calls the loop does resolve
the deferred text and usage and does yield a `finish` event with reason
`stop` — but the `break` then falls into the post-loop epilogue, whose
`if (textDeferred)` guard is always truthy, so a second `finish` event
with reason `length` is also yielded.  The stream therefore contains two
finish events and ends with `length`, contradicting the claim (and the
epilogue's own comment).  Evaluated here on the failing input: a single
step streaming only the text delta `hi`. -/
theorem runAgent_stop_then_length_bug :
    runAgentEvents (fun _ _ => "")
      (fun _ => ⟨[⟨some "hi", none, none⟩], none⟩) =
      ⟨[.textDelta "hi", .finish "stop", .finish "length"],
       some "hi", some ⟨0, 0⟩, some []⟩ := rfl

/-- C5: an op whose application throws (here: an invalid selector, the
exception `querySelectorAll` raises) does not abort the list: it yields
the detail record with `matched 0, applied 0` and the error text, every
following op is applied against the document state produced by the ops
before it, and the op counts into `failed` — with all details present,
`failed` equals the number of ops with zero applications. -/
theorem domReplace_op_error_recovery
    (store : AppStore) (wid nid : String) (n : WinNode)
    (pre post : List DomMutation) (bad : DomMutation) (e : String)
    (hw : lookupA wid store.windowIdToNodeId = some nid)
    (hn : findNode store.nodes nid = some n)
    (he : parseSelector bad.selOf = .error e) :
    (domReplace store wid (pre ++ bad :: post)).1.details =
      (applyMutations (parseHtml (if n.html = "" then defaultEmptyDoc else n.html))
          pre).details ++
        ⟨bad.actionName, bad.selOf, 0, 0, some e⟩ ::
        (applyMutations
          (applyMutations
            (parseHtml (if n.html = "" then defaultEmptyDoc else n.html)) pre).doc
          post).details ∧
    (domReplace store wid (pre ++ bad :: post)).1.html =
      "<!DOCTYPE html>" ++ serializeNode
        (applyMutations
          (applyMutations
            (parseHtml (if n.html = "" then defaultEmptyDoc else n.html)) pre).doc
          post).doc ∧
    (domReplace store wid (pre ++ bad :: post)).1.totals.failed =
      ((domReplace store wid (pre ++ bad :: post)).1.details.filter
        (fun d => d.applied = 0)).length := by
  have hrec := applyMutations_recovers
    (parseHtml (if n.html = "" then defaultEmptyDoc else n.html)) pre post bad e he
  have hres : (domReplace store wid (pre ++ bad :: post)).1 =
      ⟨"edited", wid,
        "<!DOCTYPE html>" ++ serializeNode
          (applyMutations (parseHtml
            (if n.html = "" then defaultEmptyDoc else n.html))
            (pre ++ bad :: post)).doc,
        ⟨(pre ++ bad :: post).length,
         (applyMutations (parseHtml
            (if n.html = "" then defaultEmptyDoc else n.html))
            (pre ++ bad :: post)).totalTargets,
         (applyMutations (parseHtml
            (if n.html = "" then defaultEmptyDoc else n.html))
            (pre ++ bad :: post)).totalApplied,
         (pre ++ bad :: post).length -
           ((applyMutations (parseHtml
              (if n.html = "" then defaultEmptyDoc else n.html))
              (pre ++ bad :: post)).details.filter
              (fun d => 0 < d.applied)).length⟩,
        (applyMutations (parseHtml
          (if n.html = "" then defaultEmptyDoc else n.html))
          (pre ++ bad :: post)).details⟩ := by
    simp only [domReplace, hw, hn]
  rw [hres]
  refine ⟨?_, ?_, ?_⟩
  · rw [hrec]
  · rw [hrec]
  · have hlen : (applyMutations (parseHtml
        (if n.html = "" then defaultEmptyDoc else n.html))
        (pre ++ bad :: post)).details.length = (pre ++ bad :: post).length :=
      applyMutations_details_length _ _
    rw [← hlen]
    exact filter_length_pos_zero _

/-- C5 witness: a concrete run with an empty (invalid) selector between
two valid ops; the hypotheses and the evaluated conclusion are
discharged on the canonical one-window store. -/
theorem domReplace_op_error_recovery_witness :
    lookupA "w1" storeCanon.windowIdToNodeId = some "n1" ∧
    findNode storeCanon.nodes "n1" = some ⟨"n1", "Win",
      "<!DOCTYPE html><html><head></head><body><div id=\"a\">x</div></body></html>"⟩ ∧
    parseSelector (DomMutation.selOf (.set_text "" "B")) =
      .error "SyntaxError: empty selector" ∧
    ((domReplace storeCanon "w1"
        ([DomMutation.set_text "#a" "A"] ++ DomMutation.set_text "" "B" ::
          [DomMutation.set_text "#a" "C"])).1.details =
      (applyMutations (parseHtml (if
          ("<!DOCTYPE html><html><head></head><body><div id=\"a\">x</div></body></html>" : String) = ""
          then defaultEmptyDoc
          else "<!DOCTYPE html><html><head></head><body><div id=\"a\">x</div></body></html>"))
          [DomMutation.set_text "#a" "A"]).details ++
        ⟨"set_text", "", 0, 0, some "SyntaxError: empty selector"⟩ ::
        (applyMutations
          (applyMutations (parseHtml (if
            ("<!DOCTYPE html><html><head></head><body><div id=\"a\">x</div></body></html>" : String) = ""
            then defaultEmptyDoc
            else "<!DOCTYPE html><html><head></head><body><div id=\"a\">x</div></body></html>"))
            [DomMutation.set_text "#a" "A"]).doc
          [DomMutation.set_text "#a" "C"]).details) :=
  ⟨rfl, rfl, rfl,
    (domReplace_op_error_recovery storeCanon "w1" "n1"
      ⟨"n1", "Win",
        "<!DOCTYPE html><html><head></head><body><div id=\"a\">x</div></body></html>"⟩
      [DomMutation.set_text "#a" "A"] [DomMutation.set_text "#a" "C"]
      (DomMutation.set_text "" "B") "SyntaxError: empty selector"
      rfl rfl rfl).1⟩

/-- C6: a dispatch on a `windowId` that maps to no window returns a
normal-shaped result and leaves the store untouched: `domReplace` reports
zero targets and applications with every op marked failed, and
`updateWindowTitle` still answers `updated` as an idempotent no-op. -/
theorem unknown_windowId_soft_fails
    (store : AppStore) (wid title : String) (muts : List DomMutation)
    (h : lookupA wid store.windowIdToNodeId = none) :
    (domReplace store wid muts).1.totals = ⟨muts.length, 0, 0, muts.length⟩ ∧
    (domReplace store wid muts).1.details =
      muts.map (fun m => ⟨m.actionName, m.selOf, 0, 0, none⟩) ∧
    (domReplace store wid muts).2 = store ∧
    (updateWindowTitle store wid title).1 = ⟨"updated", wid, title⟩ ∧
    (updateWindowTitle store wid title).2 = store := by
  simp [domReplace, updateWindowTitle, h]

/-- C6 witness: an unknown window id on the canonical store. -/
theorem unknown_windowId_soft_fails_witness :
    lookupA "wX" storeCanon.windowIdToNodeId = none ∧
    (domReplace storeCanon "wX" [DomMutation.set_text "#a" "B"]).1.totals =
      ⟨1, 0, 0, 1⟩ ∧
    (updateWindowTitle storeCanon "wX" "T").1 = ⟨"updated", "wX", "T"⟩ :=
  ⟨rfl,
   (unknown_windowId_soft_fails storeCanon "wX" "T"
      [DomMutation.set_text "#a" "B"] rfl).1,
   (unknown_windowId_soft_fails storeCanon "wX" "T"
      [DomMutation.set_text "#a" "B"] rfl).2.2.2.1⟩

/-- C9, counterexample: the claim says an empty mutation list leaves the
stored markup textually identical.  On a window whose stored markup lacks
the doctype preamble, the unconditional re-serialization — the doctype
prefix concatenated with the document-element markup — changes the text. -/
theorem domReplace_empty_not_identical_counterexample :
    (domReplace storeNoDoctype "w1" []).1.totals = ⟨0, 0, 0, 0⟩ ∧
    findNode (domReplace storeNoDoctype "w1" []).2.nodes "n1" =
      some ⟨"n1", "Win",
        "<!DOCTYPE html><html><head></head><body></body></html>"⟩ ∧
    ¬ findNode (domReplace storeNoDoctype "w1" []).2.nodes "n1" =
        some ⟨"n1", "Win", "<html><head></head><body></body></html>"⟩ := by
  refine ⟨by decide, by decide, by decide⟩

/-- C9 (amended): an empty mutation list reports all-zero totals and an
empty detail list, and leaves the stored markup unchanged character for
character provided the stored markup is already in canonical serialized
form — the doctype prefix concatenated with the document-element markup
of its own parse — as any markup produced by a previous `domReplace` is;
markup not in that form is normalized to it. -/
theorem domReplace_empty_list (store : AppStore) (wid nid : String)
    (n : WinNode)
    (hw : lookupA wid store.windowIdToNodeId = some nid)
    (hn : findNode store.nodes nid = some n)
    (hcanon : "<!DOCTYPE html>" ++ serializeNode
        (parseHtml (if n.html = "" then defaultEmptyDoc else n.html)) = n.html) :
    (domReplace store wid []).1.totals = ⟨0, 0, 0, 0⟩ ∧
    (domReplace store wid []).1.details = [] ∧
    (domReplace store wid []).1.html = n.html ∧
    findNode (domReplace store wid []).2.nodes nid = some n := by
  have hres : (domReplace store wid []).1 =
      ⟨"edited", wid,
        "<!DOCTYPE html>" ++ serializeNode
          (parseHtml (if n.html = "" then defaultEmptyDoc else n.html)),
        ⟨0, 0, 0, 0⟩, []⟩ := by
    simp only [domReplace, hw, hn]
    exact rfl
  have hstore : (domReplace store wid []).2.nodes =
      store.nodes.map (fun m =>
        if m.id = nid then
          { m with html := ("<!DOCTYPE html>" ++ serializeNode (parseHtml (if n.html = "" then defaultEmptyDoc else n.html))) }
        else m) := by
    simp only [domReplace, hw, hn]
    rfl
  refine ⟨by rw [hres], by rw [hres], by rw [hres]; exact hcanon, ?_⟩
  rw [hstore, hcanon, findNode_map_update store.nodes nid n.html n hn]

/-- C9 witness: on the canonical one-window store the empty list is a
perfect no-op. -/
theorem domReplace_empty_list_witness :
    ("<!DOCTYPE html>" ++ serializeNode (parseHtml (if
        ("<!DOCTYPE html><html><head></head><body><div id=\"a\">x</div></body></html>" : String) = ""
        then defaultEmptyDoc
        else "<!DOCTYPE html><html><head></head><body><div id=\"a\">x</div></body></html>")) =
      "<!DOCTYPE html><html><head></head><body><div id=\"a\">x</div></body></html>") ∧
    (domReplace storeCanon "w1" []).1.totals = ⟨0, 0, 0, 0⟩ ∧
    findNode (domReplace storeCanon "w1" []).2.nodes "n1" =
      some ⟨"n1", "Win",
        "<!DOCTYPE html><html><head></head><body><div id=\"a\">x</div></body></html>"⟩ :=
  ⟨by decide,
   (domReplace_empty_list storeCanon "w1" "n1"
      ⟨"n1", "Win",
        "<!DOCTYPE html><html><head></head><body><div id=\"a\">x</div></body></html>"⟩
      rfl rfl (by decide)).1,
   (domReplace_empty_list storeCanon "w1" "n1"
      ⟨"n1", "Win",
        "<!DOCTYPE html><html><head></head><body><div id=\"a\">x</div></body></html>"⟩
      rfl rfl (by decide)).2.2.2⟩

/-- C7, counterexample: the claim needs only that no window is named
`Notes`, but in a session already holding a window display-named
`Notes (2)` the second call returns `Notes (3)`, not `Notes (2)`. -/
theorem createNewWindow_notes_counterexample :
    lookupA "Notes" storeNotes2.nameToNodeId = none ∧
    (do
      let rs1 ← createNewWindow storeNotes2 ["wA"] "nA" "Notes" "<p></p>"
      let rs2 ← createNewWindow rs1.2 ["wB"] "nB" "Notes" "<p></p>"
      pure (rs1.1.finalName, rs2.1.finalName)) =
      some ("Notes", "Notes (3)") ∧
    ¬ (do
        let rs1 ← createNewWindow storeNotes2 ["wA"] "nA" "Notes" "<p></p>"
        let rs2 ← createNewWindow rs1.2 ["wB"] "nB" "Notes" "<p></p>"
        pure (rs1.1.finalName, rs2.1.finalName)) =
        some ("Notes", "Notes (2)") := by
  refine ⟨rfl, by decide, by decide⟩

/-- C7 (amended): in a session in which neither `Notes` nor `Notes (2)`
is a window's display name, two successive `createNewWindow("Notes", …)`
calls that complete return `finalName` values `Notes` and `Notes (2)`:
a collision is resolved by the incrementing numeric suffix starting
at 2. -/
theorem createNewWindow_notes_suffix (store : AppStore)
    (s1 s2 : List String) (n1 n2 html1 html2 : String)
    (r1 r2 : CreateResult) (st1 st2 : AppStore)
    (h0 : lookupA "Notes" store.nameToNodeId = none)
    (h2 : lookupA "Notes (2)" store.nameToNodeId = none)
    (hc1 : createNewWindow store s1 n1 "Notes" html1 = some (r1, st1))
    (hc2 : createNewWindow st1 s2 n2 "Notes" html2 = some (r2, st2)) :
    r1.finalName = "Notes" ∧ r2.finalName = "Notes (2)" := by
  obtain ⟨hf1, _, hmap1, _⟩ := createNewWindow_spec store s1 n1 "Notes" html1 r1 st1 hc1
  have htrim : jsTrim "Notes" = "Notes" := rfl
  have hr1 : r1.finalName = "Notes" := by
    rw [hf1]
    unfold freshName
    rw [htrim, h0]
  obtain ⟨hf2, _, _, _⟩ := createNewWindow_spec st1 s2 n2 "Notes" html2 r2 st2 hc2
  refine ⟨hr1, ?_⟩
  rw [hf2]
  unfold freshName
  rw [htrim]
  rw [hmap1, hr1]
  rw [lookupA_setA_self "Notes" r1.nodeId store.nameToNodeId]
  have hfuel : ∃ f, (setA "Notes" r1.nodeId store.nameToNodeId).length + 1 = f + 1 :=
    ⟨(setA "Notes" r1.nodeId store.nameToNodeId).length, rfl⟩
  obtain ⟨f, hf⟩ := hfuel
  rw [hf]
  unfold freshNameAux
  have hcand : ("Notes" ++ " (" ++ toString 2 ++ ")" : String) = "Notes (2)" := rfl
  rw [hcand]
  simp only [lookupA_setA_ne "Notes (2)" "Notes" r1.nodeId store.nameToNodeId
    (by decide), h2]

/-- C7 witness: in the empty session the two calls return `Notes` then
`Notes (2)`. -/
theorem createNewWindow_notes_suffix_witness :
    (createNewWindow storeEmpty ["wA"] "nA" "Notes" "<p></p>").map
        (fun rs => rs.1.finalName) = some "Notes" ∧
    (do
      let rs1 ← createNewWindow storeEmpty ["wA"] "nA" "Notes" "<p></p>"
      let rs2 ← createNewWindow rs1.2 ["wB"] "nB" "Notes" "<p></p>"
      pure rs2.1.finalName) = some "Notes (2)" := by
  have h := createNewWindow_notes_suffix storeEmpty ["wA"] ["wB"] "nA" "nB"
    "<p></p>" "<p></p>"
    ((createNewWindow storeEmpty ["wA"] "nA" "Notes" "<p></p>").get (by decide)).1
    (((do
        let rs1 ← createNewWindow storeEmpty ["wA"] "nA" "Notes" "<p></p>"
        createNewWindow rs1.2 ["wB"] "nB" "Notes" "<p></p>" :
       Option (CreateResult × AppStore))).get (by decide)).1
    ((createNewWindow storeEmpty ["wA"] "nA" "Notes" "<p></p>").get (by decide)).2
    (((do
        let rs1 ← createNewWindow storeEmpty ["wA"] "nA" "Notes" "<p></p>"
        createNewWindow rs1.2 ["wB"] "nB" "Notes" "<p></p>" :
       Option (CreateResult × AppStore))).get (by decide)).2
    rfl rfl (by rfl) (by rfl)
  exact ⟨by rw [show (createNewWindow storeEmpty ["wA"] "nA" "Notes" "<p></p>").map
        (fun rs => rs.1.finalName) =
        some ((createNewWindow storeEmpty ["wA"] "nA" "Notes" "<p></p>").get
          (by decide)).1.finalName from rfl, h.1],
    by rw [show (do
        let rs1 ← createNewWindow storeEmpty ["wA"] "nA" "Notes" "<p></p>"
        let rs2 ← createNewWindow rs1.2 ["wB"] "nB" "Notes" "<p></p>"
        pure rs2.1.finalName : Option String) =
        some (((do
          let rs1 ← createNewWindow storeEmpty ["wA"] "nA" "Notes" "<p></p>"
          createNewWindow rs1.2 ["wB"] "nB" "Notes" "<p></p>" :
         Option (CreateResult × AppStore))).get (by decide)).1.finalName from rfl,
      h.2]⟩

/-- C10: a completed `createNewWindow` returns a `windowId` that was not
registered before the call (ids are regenerated until unused), and
registering it preserves distinctness of the windowId keys, so the
windowId map never maps two windows to one id. -/
theorem createNewWindow_fresh_windowId (store : AppStore) (sup : List String)
    (nid name html : String) (r : CreateResult) (st2 : AppStore)
    (hc : createNewWindow store sup nid name html = some (r, st2)) :
    lookupA r.windowId store.windowIdToNodeId = none ∧
    ((store.windowIdToNodeId.map Prod.fst).Nodup →
      (st2.windowIdToNodeId.map Prod.fst).Nodup) := by
  obtain ⟨_, hfw, _, hwmap⟩ :=
    createNewWindow_spec store sup nid name html r st2 hc
  have hfresh : lookupA r.windowId store.windowIdToNodeId = none :=
    freshWindowId_fresh store.windowIdToNodeId sup r.windowId hfw
  refine ⟨hfresh, fun hnd => ?_⟩
  rw [hwmap]
  exact keys_nodup_setA_fresh store.windowIdToNodeId r.windowId r.nodeId
    hfresh hnd

/-- C10 witness: creating a window in a store already holding `w0` with a
supply that first offers the taken id `w0` and then `w9`. -/
theorem createNewWindow_fresh_windowId_witness :
    (createNewWindow storeNotes2 ["w0", "w9"] "nA" "Pad" "<p></p>").map
        (fun rs => rs.1.windowId) = some "w9" ∧
    lookupA "w9" storeNotes2.windowIdToNodeId = none ∧
    (((createNewWindow storeNotes2 ["w0", "w9"] "nA" "Pad" "<p></p>").get
        (by decide)).2.windowIdToNodeId.map Prod.fst).Nodup := by
  refine ⟨rfl, ?_, ?_⟩
  · exact (createNewWindow_fresh_windowId storeNotes2 ["w0", "w9"] "nA" "Pad"
      "<p></p>"
      ((createNewWindow storeNotes2 ["w0", "w9"] "nA" "Pad" "<p></p>").get
        (by decide)).1
      ((createNewWindow storeNotes2 ["w0", "w9"] "nA" "Pad" "<p></p>").get
        (by decide)).2 (by rfl)).1
  · exact (createNewWindow_fresh_windowId storeNotes2 ["w0", "w9"] "nA" "Pad"
      "<p></p>"
      ((createNewWindow storeNotes2 ["w0", "w9"] "nA" "Pad" "<p></p>").get
        (by decide)).1
      ((createNewWindow storeNotes2 ["w0", "w9"] "nA" "Pad" "<p></p>").get
        (by decide)).2 (by rfl)).2 (by decide)

end GenUI
